import Mathlib

/-!
Shallow embedding of the hookstate core (src/core/src/index.ts):
the Store write/read algorithm, the Promised wrapper, the notification
fan-out and the tracking-node cache pruning, together with theorems
about the testable properties of the specification.

JavaScript values are modelled as a tagged tree `JsValue`; the unique
`none` sentinel (a Symbol in the source) is the constructor `vnone`,
the JS `undefined` is `vundefined`, promise-like values (as recognised
by the default `promiseDetector`) are `vpromise`.  Objects are
insertion-ordered association lists keyed by strings, arrays are lists
(sparse holes produced by out-of-range assignment are modelled as
`vundefined` elements).  A thrown JS exception is an `Except.error`.
-/

/-- Path segment: JS property keys reaching the library are strings or
array indices (numbers). -/
inductive Key where
  | str (s : String)
  | num (n : Nat)
deriving DecidableEq, Repr

/-- A JS value tree as stored in a hookstate Store. -/
inductive JsValue where
  | vnum (i : Int)
  | vstr (s : String)
  | vbool (b : Bool)
  | vnull
  | vundefined
  | vnone                                   -- the `none` delete/absent sentinel (a Symbol)
  | vobj (kvs : List (String × JsValue))    -- plain object, insertion order
  | varr (xs : List JsValue)                -- array
  | vpromise (id : Nat)                     -- a value the promiseDetector recognises
deriving Repr

/-- JS coerces numeric object keys to strings: the map key of a path segment. -/
def keyStr : Key → String
  | .str s => s
  | .num n => toString n

/-- Canonical decimal numeral parse: exactly the strings that are valid
array-index keys (no sign, no leading zero except for zero itself). -/
def canonNat? (s : String) : Option Nat :=
  match s.toList with
  | [] => none
  | ['0'] => some 0
  | c :: cs =>
      if c.isDigit ∧ c ≠ '0' ∧ cs.all (·.isDigit) then
        some ((c :: cs).foldl (fun a d => a * 10 + (d.toNat - 48)) 0)
      else none

/-- The array index denoted by a path segment, if any. -/
def keyIdx : Key → Option Nat
  | .num n => some n
  | .str s => canonNat? s

/-- Association-list lookup (JS object property read). -/
def alookup {α : Type} : List (String × α) → String → Option α
  | [], _ => none
  | (k, v) :: rest, key => if k = key then some v else alookup rest key

/-- JS object property assignment: update in place if the key exists,
append (insertion order) otherwise. -/
def aset {α : Type} : List (String × α) → String → α → List (String × α)
  | [], key, v => [(key, v)]
  | (k, w) :: rest, key, v =>
      if k = key then (k, v) :: rest else (k, w) :: aset rest key v

/-- JS `delete obj[key]` on an object. -/
def aerase {α : Type} : List (String × α) → String → List (String × α)
  | [], _ => []
  | (k, w) :: rest, key => if k = key then rest else (k, w) :: aerase rest key

/-- JS array element assignment `xs[n] = v`: in-range update, otherwise
extension (holes created by a far out-of-range write read as undefined). -/
def lset (xs : List JsValue) (n : Nat) (v : JsValue) : List JsValue :=
  if n < xs.length then xs.set n v
  else xs ++ List.replicate (n - xs.length) .vundefined ++ [v]

/-- Test for the `none` sentinel (`value === none`). -/
def isNone : JsValue → Bool
  | .vnone => true
  | _ => false

/-- The configured promise detector applied under the object guard
`Object(value) === value && configuration.promiseDetector(value)`. -/
def isPromiseLike : JsValue → Bool
  | .vpromise _ => true
  | _ => false

/-- JS `newValue !== Object(newValue)`: primitives, including symbols. -/
def isPrimitive : JsValue → Bool
  | .vnum _ => true
  | .vstr _ => true
  | .vbool _ => true
  | .vnull => true
  | .vundefined => true
  | .vnone => true
  | .vobj _ => false
  | .varr _ => false
  | .vpromise _ => false

/-- JS strict equality restricted to the primitive cases (reference
equality of distinct objects is never true for the values compared by
the no-op check). -/
def jsEqPrim : JsValue → JsValue → Bool
  | .vnum a, .vnum b => decide (a = b)
  | .vstr a, .vstr b => decide (a = b)
  | .vbool a, .vbool b => decide (a = b)
  | .vnull, .vnull => true
  | .vundefined, .vundefined => true
  | .vnone, .vnone => true
  | _, _ => false

/-- JS property read `v[k]`: `some` is the produced value (possibly
undefined), `none` is a thrown TypeError (reading off null/undefined). -/
def indexVal : JsValue → Key → Option JsValue
  | .vnull, _ => none
  | .vundefined, _ => none
  | .vobj kvs, k => some ((alookup kvs (keyStr k)).getD .vundefined)
  | .varr xs, k =>
      match keyIdx k with
      | some n => some (xs.getD n .vundefined)
      | none => some .vundefined
  | .vstr s, k =>
      match keyIdx k with
      | some n =>
          some (if h : n < s.toList.length
                then .vstr (String.mk [s.toList.get ⟨n, h⟩])
                else .vundefined)
      | none => some .vundefined
  | _, _ => some .vundefined

/-- JS `k in v`: `some` is the boolean answer, `none` a TypeError
(`in` applied to a non-object). -/
def hasKey : JsValue → Key → Option Bool
  | .vobj kvs, k => some (alookup kvs (keyStr k)).isSome
  | .varr xs, k =>
      some (match keyIdx k with
            | some n => decide (n < xs.length)
            | none => false)
  | .vpromise _, _ => some false
  | _, _ => none

/-- Store.get's walk `path.forEach(p => result = result[p])`;
`none` is a thrown TypeError. -/
def getWalk : JsValue → List Key → Option JsValue
  | v, [] => some v
  | v, k :: ks =>
      match indexVal v k with
      | some c => getWalk c ks
      | none => none

/-- Per-key change tag of a SetActionDescriptor. -/
inductive Act where
  | I | U | D
deriving DecidableEq, Repr

/-- SetActionDescriptor: a path plus an optional per-key action map
(record keys are strings in JS). -/
structure Descriptor where
  path : List Key
  actions : Option (List (String × Act)) := none
deriving DecidableEq, Repr

/-- The Promised wrapper.  `hasSource` records whether the constructor
received a backing promise; the bare `resolver` callback exists exactly
when it did not. -/
structure PromisedM where
  hasSource : Bool
  fullfilled : Bool
  hasError : Bool
deriving DecidableEq, Repr

/-- Store.createPromised: the resolver is installed iff no source
promise was supplied. -/
def createPromised (src : Option JsValue) : PromisedM :=
  { hasSource := src.isSome, fullfilled := false, hasError := false }

/-- The Store state: root value, edition counter (DestroyedEdition = -1)
and the optional Promised wrapper.  Plugin and subscriber sets are
modelled as event emissions, respectively as explicit arguments of the
notification function. -/
structure StoreM where
  value : JsValue
  edition : Int
  promised : Option PromisedM
deriving Repr

/-- The Store constructor. -/
def mkStore (v : JsValue) : StoreM :=
  if isPromiseLike v then
    { value := .vnone, edition := 0, promised := some (createPromised (some v)) }
  else if isNone v then
    { value := .vnone, edition := 0, promised := some (createPromised none) }
  else
    { value := v, edition := 0, promised := none }

/-- Store.get: early return of the none sentinel, otherwise the walk. -/
def storeGet (s : StoreM) (path : List Key) : Option JsValue :=
  if isNone s.value then some s.value else getWalk s.value path

/-- PluginCallbacksOnSetArgument with its optional fields. -/
structure OnSetArg where
  path : List Key
  state : Option JsValue := none
  value : Option JsValue := none
  previous : Option JsValue := none
  merged : Option JsValue := none
deriving Repr

/-- Observable callback effects of the store operations. -/
inductive Event where
  | pluginSet (arg : OnSetArg)             -- an onSet plugin callback round
  | destroyFired (arg : Option JsValue)    -- the onDestroy callback round
  | resolverInvoked (v : JsValue)          -- completion of a bare pending value
deriving Repr

/-- Thrown errors of the modelled operations. -/
inductive JsErr where
  | destroyed          -- ErrorId.SetStateWhenDestroyed
  | setWhilePromised   -- ErrorId.SetStateWhenPromised
  | nestedPromise      -- ErrorId.SetStateNestedToPromised
  | getWhilePromised   -- ErrorId.GetStateWhenPromised
  | promisedError      -- rethrow of the captured rejection error
  | typeError          -- a native TypeError from indexing
deriving DecidableEq, Repr

/-- Store.afterSet: edition bump and plugin notification, guarded by the
destroyed marker. -/
def afterSet (s : StoreM) (arg : OnSetArg) : StoreM × List Event :=
  if s.edition ≠ -1 then ({ s with edition := s.edition + 1 }, [.pluginSet arg])
  else (s, [])

/-- Split a path into its prefix and final segment. -/
def splitLast : List Key → Option (List Key × Key)
  | [] => none
  | [k] => some ([], k)
  | k :: ks =>
      match splitLast ks with
      | some (pfx, p) => some (k :: pfx, p)
      | none => none

/-- Outcome of the final-segment branch of a nested write. -/
inductive NestedRes where
  | updated (prev : JsValue)
  | deleted (prev : JsValue)
  | inserted
  | noop
deriving Repr

/-- The branch on the walked-to parent container: `p in target` then the
update / delete / insert / no-op cases of Store.set.  A non-container
target is the TypeError the JS `in` operator raises. -/
def nestedApply (p : Key) (value : JsValue) : JsValue → Except JsErr (JsValue × NestedRes)
  | .vobj kvs =>
      let k := keyStr p
      match alookup kvs k with
      | some prev =>
          if isNone value then .ok (.vobj (aerase kvs k), .deleted prev)
          else .ok (.vobj (aset kvs k value), .updated prev)
      | none =>
          if isNone value then .ok (.vobj kvs, .noop)
          else .ok (.vobj (aset kvs k value), .inserted)
  | .varr xs =>
      match keyIdx p with
      | some n =>
          if n < xs.length then
            let prev := xs.getD n .vundefined
            if isNone value then
              match p with
              | .num _ => .ok (.varr (xs.eraseIdx n), .deleted prev)   -- splice
              | .str _ => .ok (.varr (xs.set n .vundefined), .deleted prev) -- delete leaves a hole
            else .ok (.varr (xs.set n value), .updated prev)
          else
            if isNone value then .ok (.varr xs, .noop)
            else .ok (.varr (lset xs n value), .inserted)
      | none => .error .typeError   -- non-index property of an array: outside the model
  | _ => .error .typeError

/-- The prefix walk of Store.set with functional write-back of the
mutated parent.  Walking off a non-container (or a missing key, whose
read produces undefined) ends in the TypeError the source would raise
at its `in` check. -/
def applyAtParent (f : JsValue → Except JsErr (JsValue × NestedRes)) :
    JsValue → List Key → Except JsErr (JsValue × NestedRes)
  | v, [] => f v
  | v, k :: ks =>
      match v with
      | .vobj kvs =>
          let child := (alookup kvs (keyStr k)).getD .vundefined
          match applyAtParent f child ks with
          | .ok (child', r) => .ok (.vobj (aset kvs (keyStr k) child'), r)
          | .error e => .error e
      | .varr xs =>
          match keyIdx k with
          | some n =>
              let child := xs.getD n .vundefined
              match applyAtParent f child ks with
              | .ok (child', r) => .ok (.varr (xs.set n child'), r)
              | .error e => .error e
          | none => .error .typeError
      | _ => .error .typeError

/-- Tail of the root-write branch: previous-value bookkeeping, value
assignment, afterSet, and completion of a bare pending value. -/
def finishRoot (s1 : StoreM) (v : JsValue) (arg : OnSetArg) (ad : Descriptor) :
    Except JsErr (StoreM × Descriptor × List Event) :=
  let prev := s1.value
  let arg1 := if isNone prev then { arg with previous := none } else arg
  let s2 := { s1 with value := v }
  let (s3, evs) := afterSet s2 arg1
  let bare : Bool := match s3.promised with
                     | some p => !p.hasSource
                     | none => false
  let evs2 := if isNone prev && !(isNone s3.value) && bare
              then evs ++ [.resolverInvoked s3.value] else evs
  .ok (s3, ad, evs2)

/-- Root-write case of Store.set: the three mutually exclusive branches
checked in order. -/
def rootSet (s : StoreM) (ad : Descriptor) (value : JsValue)
    (mergeValue : Option JsValue) : Except JsErr (StoreM × Descriptor × List Event) :=
  let arg0 : OnSetArg :=
    { path := [], state := some value, value := some value,
      previous := some s.value, merged := mergeValue }
  if isNone value then
    finishRoot { s with promised := some (createPromised none) } .vnone
      { arg0 with state := none, value := none } ad
  else if isPromiseLike value then
    finishRoot { s with promised := some (createPromised (some value)) } .vnone
      { arg0 with state := none, value := none } ad
  else if (match s.promised with
           | some p => p.hasSource && !p.fullfilled
           | none => false : Bool) then
    .error .setWhilePromised
  else
    finishRoot s value arg0 ad

/-- Tail of the nested-write branches: afterSet and the returned
descriptor of each case. -/
def nestedFinish (s : StoreM) (ad : Descriptor) (pfx : List Key) (p : Key)
    (value : JsValue) (mergeValue : Option JsValue) (root' : JsValue) :
    NestedRes → Except JsErr (StoreM × Descriptor × List Event)
  | .updated prev =>
      let (s', evs) := afterSet { s with value := root' }
        { path := ad.path, state := some root', value := some value,
          previous := some prev, merged := mergeValue }
      .ok (s', ad, evs)
  | .deleted prev =>
      let (s', evs) := afterSet { s with value := root' }
        { path := ad.path, state := some root', previous := some prev,
          merged := mergeValue }
      .ok (s', { path := pfx, actions := some [(keyStr p, .D)] }, evs)
  | .inserted =>
      let (s', evs) := afterSet { s with value := root' }
        { path := ad.path, state := some root', value := some value,
          merged := mergeValue }
      .ok (s', { path := pfx, actions := some [(keyStr p, .I)] }, evs)
  | .noop => .ok (s, ad, [])

/-- Store.set. -/
def storeSet (s : StoreM) (ad : Descriptor) (value : JsValue)
    (mergeValue : Option JsValue) : Except JsErr (StoreM × Descriptor × List Event) :=
  if s.edition < 0 then .error .destroyed
  else
    match splitLast ad.path with
    | none => rootSet s ad value mergeValue
    | some (pfx, p) =>
        if isPromiseLike value then .error .nestedPromise
        else
          match applyAtParent (nestedApply p value) s.value pfx with
          | .error e => .error e
          | .ok (root', res) => nestedFinish s ad pfx p value mergeValue root' res

/-- Insert into a list sorted by the boolean comparison. -/
def insOrd {α : Type} (le : α → α → Bool) (x : α) : List α → List α
  | [] => [x]
  | y :: ys => if le x y then x :: y :: ys else y :: insOrd le x ys

/-- Stable insertion sort by a boolean comparison (the source relies only
on the resulting order, not the algorithm). -/
def insSortBy {α : Type} (le : α → α → Bool) : List α → List α
  | [] => []
  | x :: xs => insOrd le x (insSortBy le xs)

/-- Lexicographic comparison of character code units: the comparison the
default Array.prototype.sort applies to the stringified elements. -/
def strLeChars : List Char → List Char → Bool
  | [], _ => true
  | _ :: _, [] => false
  | c :: cs, d :: ds =>
      if c.toNat < d.toNat then true
      else if d.toNat < c.toNat then false
      else strLeChars cs ds

/-- String comparison by code units (JS default sort order). -/
def strLe (a b : String) : Bool :=
  strLeChars a.toList b.toList

/-- JS Object.keys enumeration order: canonical array-index keys in
ascending numeric order first, then the remaining string keys in
insertion order. -/
def objKeys {α : Type} (kvs : List (String × α)) : List String :=
  let names := kvs.map (fun kv => kv.1)
  (insSortBy (fun a b => decide ((canonNat? a).getD 0 ≤ (canonNat? b).getD 0))
      (names.filter (fun s => (canonNat? s).isSome)))
    ++ names.filter (fun s => (canonNat? s).isNone)

/-- The string JS produces for a key that went through Number():
the numeral, or the text NaN for a non-index key. -/
def numToSortStr : Option Nat → String
  | some n => toString n
  | none => "NaN"

/-- StateMethodsImpl.onSet: the first deleted index of an array write,
as the source computes it with map(Number).sort().find(action D).
The default Array.prototype.sort comparison is lexicographic on the
decimal strings. -/
def firstDeletedIndex (acts : List (String × Act)) : Option Nat :=
  (((insSortBy (fun a b => strLe (numToSortStr a) (numToSortStr b))
        ((objKeys acts).map canonNat?)).find?
      (fun i => decide (alookup acts (numToSortStr i) = some Act.D))).bind id)

/-- StateMethodsImpl.onSet, children-cache pruning step of a write whose
target is this node: with an action map and a live children cache, an
array value with a delete action drops every cached child whose index is
at least the computed first deleted index or whose key is in the action
map; otherwise only the keys in the action map are dropped; without an
action map (or cache) the whole cache is discarded (result `none`). -/
def onSetPruneChildren (isArr : Bool) (acts? : Option (List (String × Act)))
    (children? : Option (List String)) : Option (List String) :=
  match acts?, children? with
  | some acts, some children =>
      if isArr && acts.any (fun kv => kv.2 == Act.D) then
        let fdi := firstDeletedIndex acts
        some (children.filter (fun ck =>
          !((match canonNat? ck, fdi with
             | some c, some f => decide (c ≥ f)
             | _, _ => false) || (alookup acts ck).isSome)))
      else
        some (children.filter (fun ck => (alookup acts ck).isNone))
  | _, _ => none

/-- Add a callback to the JS Set of pending re-render actions: identity
deduplication, insertion order preserved. -/
def setAdd (acc : List Nat) (x : Nat) : List Nat :=
  if x ∈ acc then acc else acc ++ [x]

/-- One notification round: every subscriber receives the descriptor and
adds its re-render callbacks to the shared action set. -/
def collectOne (subs : List (Descriptor → List Nat)) (acc : List Nat)
    (d : Descriptor) : List Nat :=
  subs.foldl (fun acc s => (s d).foldl setAdd acc) acc

/-- Condition of the fan-out optimisation: an action map in which every
action is an update. -/
def allU (m : List (String × Act)) : Bool :=
  m.all (fun kv => kv.2 == Act.U)

/-- Store.update: unfold an all-update action map into one single-key
notification per child key (path extended by the string key, no action
map), otherwise deliver the descriptor as-is; afterwards the collected
action set is invoked in order, each callback once.  Returns the
delivered descriptors and the invocation list. -/
def storeUpdateModel (subs : List (Descriptor → List Nat)) (ad : Descriptor) :
    List Descriptor × List Nat :=
  match ad.actions with
  | some m =>
      if allU m then
        let ds := (objKeys m).map
          (fun key => ({ path := ad.path ++ [Key.str key] } : Descriptor))
        (ds, ds.foldl (collectOne subs) [])
      else ([ad], collectOne subs [] ad)
  | none => ([ad], collectOne subs [] ad)

/-- The slice of StateMethodsImpl state the read/write methods use. -/
structure Methods where
  store : StoreM
  path : List Key
  valueSource : JsValue
  valueEdition : Int
deriving Repr

/-- Store.toMethods: a root methods object with a fresh snapshot. -/
def mkMethods (s : StoreM) : Methods :=
  { store := s, path := [], valueSource := s.value, valueEdition := s.edition }

/-- StateMethodsImpl.getUntracked: refresh the snapshot when the edition
advanced, then fail on the absent sentinel unless allowed (rethrowing a
captured rejection error first). -/
def getUntracked (m : Methods) (allowPromised : Bool) :
    Except JsErr (JsValue × Methods) :=
  match (if m.valueEdition ≠ m.store.edition then
           match storeGet m.store m.path with
           | some v => Except.ok { m with valueSource := v, valueEdition := m.store.edition }
           | none => Except.error JsErr.typeError
         else Except.ok m : Except JsErr Methods) with
  | .error e => .error e
  | .ok m1 =>
      if isNone m1.valueSource && !allowPromised then
        match m1.store.promised with
        | some p => if p.hasError then .error .promisedError else .error .getWhilePromised
        | none => .error .getWhilePromised
      else .ok (m1.valueSource, m1)

/-- StateMethodsImpl.setUntrackedV4: a primitive equal to the current
value is a no-op returning null; otherwise the write goes through
Store.set.  (Function-valued updates and the proxy marker check are
outside the value model.) -/
def setUntrackedV4 (m : Methods) (newValue : JsValue) (mergeValue : Option JsValue) :
    Except JsErr (Option Descriptor × Methods × List Event) :=
  match (if isPrimitive newValue then
           match getUntracked m true with
           | .error e => .error e
           | .ok (cur, m1) => .ok (jsEqPrim newValue cur, m1)
         else .ok (false, m) : Except JsErr (Bool × Methods)) with
  | .error e => .error e
  | .ok (noopEq, m1) =>
      if noopEq then .ok (none, m1, [])
      else
        match storeSet m1.store { path := m1.path } newValue mergeValue with
        | .error e => .error e
        | .ok (s', ad', evs) => .ok (some ad', { m1 with store := s' }, evs)

/-- StateMethodsImpl.set: write, then notify only when a descriptor was
produced.  Returns the new state, plugin events, delivered notifications
and invoked re-render callbacks. -/
def methodsSet (subs : List (Descriptor → List Nat)) (m : Methods)
    (newValue : JsValue) :
    Except JsErr (Methods × List Event × List Descriptor × List Nat) :=
  match setUntrackedV4 m newValue none with
  | .error e => .error e
  | .ok (d?, m1, evs) =>
      match d? with
      | some ad =>
          let (ds, invoked) := storeUpdateModel subs ad
          .ok (m1, evs, ds, invoked)
      | none => .ok (m1, evs, [], [])

/-- The own keyed properties of a value, as Object.keys sees them
(primitives have none; string character indices are outside the model). -/
def jsObjKvs : JsValue → List (String × JsValue)
  | .vobj kvs => kvs
  | _ => []

/-- JS String() on the primitives the string-merge branch concatenates
(symbols throw and objects stringify structurally; both are outside the
claims' scope). -/
def jsToString : JsValue → String
  | .vnum i => toString i
  | .vstr s => s
  | .vbool b => if b then "true" else "false"
  | .vnull => "null"
  | .vundefined => "undefined"
  | _ => ""

/-- Tail of a merge: the aggregated value is written once through
setUntrackedV4 (its descriptor is discarded), then the merge's own
action descriptor is returned. -/
def doSetAfterMerge (m1 : Methods) (newValue : JsValue) (source : JsValue)
    (ad : Descriptor) : Except JsErr (Option Descriptor × Methods × List Event) :=
  match setUntrackedV4 m1 newValue (some source) with
  | .error e => .error e
  | .ok (_, m2, evs) => .ok (some ad, m2, evs)

/-- StateMethodsImpl.mergeUntrackedV4: array append, array keyed
insert/update/delete (deletions spliced highest-index-first), object
keyed insert/update/delete, string concatenation, else a plain set. -/
def mergeUntrackedV4 (m : Methods) (source : JsValue) :
    Except JsErr (Option Descriptor × Methods × List Event) :=
  match getUntracked m false with
  | .error e => .error e
  | .ok (cur, m1) =>
      match cur with
      | .varr xs =>
          match source with
          | .varr src =>
              let folded := src.foldl
                (fun (acc : List (String × Act) × List JsValue) e =>
                  (acc.1 ++ [(toString acc.2.length, Act.I)], acc.2 ++ [e]))
                ([], xs)
              if folded.1.isEmpty then .ok (none, m1, [])
              else doSetAfterMerge m1 (.varr folded.2) source
                     { path := m1.path, actions := some folded.1 }
          | _ =>
              let skvs := jsObjKvs source
              let keys := insSortBy strLe (objKeys skvs)
              let folded := keys.foldl
                (fun (acc : List (String × Act) × List JsValue × List Nat) i =>
                  match canonNat? i with
                  | some index =>
                      let npv := (alookup skvs i).getD .vundefined
                      if isNone npv then
                        (acc.1 ++ [(toString index, Act.D)], acc.2.1, acc.2.2 ++ [index])
                      else if index < acc.2.1.length then
                        (acc.1 ++ [(toString index, Act.U)], lset acc.2.1 index npv, acc.2.2)
                      else
                        (acc.1 ++ [(toString index, Act.I)], lset acc.2.1 index npv, acc.2.2)
                  | none => acc)   -- non-index keys of an array merge: outside the model
                ([], xs, [])
              let cur2 := folded.2.2.reverse.foldl (fun l p => l.eraseIdx p) folded.2.1
              if folded.1.isEmpty then .ok (none, m1, [])
              else doSetAfterMerge m1 (.varr cur2) source
                     { path := m1.path, actions := some folded.1 }
      | .vobj kvs =>
          let skvs := jsObjKvs source
          let folded := (objKeys skvs).foldl
            (fun (acc : List (String × Act) × List (String × JsValue)) key =>
              let npv := (alookup skvs key).getD .vundefined
              if isNone npv then (acc.1 ++ [(key, Act.D)], aerase acc.2 key)
              else if (alookup acc.2 key).isSome then
                (acc.1 ++ [(key, Act.U)], aset acc.2 key npv)
              else (acc.1 ++ [(key, Act.I)], aset acc.2 key npv))
            ([], kvs)
          if folded.1.isEmpty then .ok (none, m1, [])
          else doSetAfterMerge m1 (.vobj folded.2) source
                 { path := m1.path, actions := some folded.1 }
      | .vstr s => setUntrackedV4 m1 (.vstr (s ++ jsToString source)) (some source)
      | _ => setUntrackedV4 m1 source none

/-- External events a store can experience: a public write, settlement of
the current source promise (success or rejection), destruction. -/
inductive StoreOp where
  | opSet (path : List Key) (value : JsValue)
  | opResolve (r : JsValue)
  | opReject
  | opDestroy
deriving Repr

/-- One store operation with its observable callback events.  A thrown
write leaves the store unchanged.  Settlement follows Promised: the
fulfilled flag is recorded, and when the store is live the resolved
value re-enters the root write (promised cleared first) respectively the
rejection bumps the edition in place. -/
def runOp (s : StoreM) : StoreOp → StoreM × List Event
  | .opSet path v =>
      match storeSet s { path := path } v none with
      | .ok (s', _, evs) => (s', evs)
      | .error _ => (s, [])
  | .opResolve r =>
      match s.promised with
      | some p =>
          if p.hasSource && !p.fullfilled then
            if s.edition ≠ -1 then
              match storeSet { s with promised := none } { path := [] } r none with
              | .ok (s2, _, evs) => (s2, evs)
              | .error _ => ({ s with promised := none }, [])
            else ({ s with promised := some { p with fullfilled := true } }, [])
          else (s, [])
      | none => (s, [])
  | .opReject =>
      match s.promised with
      | some p =>
          if p.hasSource && !p.fullfilled then
            let p' : PromisedM := { p with fullfilled := true, hasError := true }
            if s.edition ≠ -1 then
              ({ s with promised := some p', edition := s.edition + 1 }, [])
            else ({ s with promised := some p' }, [])
          else (s, [])
      | none => (s, [])
  | .opDestroy =>
      ({ s with edition := -1 },
       [.destroyFired (if isNone s.value then none else some s.value)])

/-- Run a sequence of store operations, accumulating events. -/
def runOps : StoreM → List StoreOp → StoreM × List Event
  | s, [] => (s, [])
  | s, op :: ops =>
      let r1 := runOp s op
      let r2 := runOps r1.1 ops
      (r2.1, r1.2 ++ r2.2)

/-- Recogniser of destroy-callback events. -/
def isDestroyFired : Event → Bool
  | .destroyFired _ => true
  | _ => false

/-- Recogniser of destroy operations. -/
def isDestroyOp : StoreOp → Bool
  | .opDestroy => true
  | _ => false

/-- The direction of the pending invariant the code maintains: an absent
root always has a pending wrapper. -/
def rootNoneImpliesPromised (s : StoreM) : Prop :=
  s.value = .vnone → s.promised.isSome = true

/-- The claimed two-sided pending invariant. -/
def storeInvIff (s : StoreM) : Prop :=
  s.value = .vnone ↔ s.promised.isSome = true

/-- Well-formedness a reachable store maintains: the pending invariant
direction that holds, plus the edition never going below the destroyed
marker. -/
def storeWf (s : StoreM) : Prop :=
  rootNoneImpliesPromised s ∧ -1 ≤ s.edition

/-- Container test: the values the write algorithm can mutate in place. -/
def isContainer : JsValue → Bool
  | .vobj _ => true
  | .varr _ => true
  | _ => false

/-- The parent-container walk of a nested write, expressed through the
reader walk: the answer of `p in target` at the end of the prefix. -/
def hasKeyAt (root : JsValue) (pfx : List Key) (p : Key) : Option Bool :=
  (getWalk root pfx).bind (fun t => hasKey t p)

theorem isNone_eq_false {v : JsValue} : isNone v = false ↔ v ≠ .vnone := by
  cases v <;> simp [isNone]

theorem alookup_aset_self {α : Type} (l : List (String × α)) (k : String) (v : α) :
    alookup (aset l k v) k = some v := by
  induction l with
  | nil => simp [aset, alookup]
  | cons hd tl ih =>
      obtain ⟨k1, v1⟩ := hd
      by_cases h : k1 = k
      · simp [aset, h, alookup]
      · simp [aset, h, alookup, ih]

theorem lgetD_set_self (xs : List JsValue) (n : Nat) (v d : JsValue)
    (h : n < xs.length) : (xs.set n v).getD n d = v := by
  induction xs generalizing n with
  | nil => simp at h
  | cons hd tl ih =>
      cases n with
      | zero => simp [List.set, List.getD]
      | succ m =>
          simp only [List.set, List.getD, List.getElem?_cons_succ,
            List.length_cons] at *
          exact ih m (by omega)

theorem getD_append_ge (as bs : List JsValue) (n : Nat) (d : JsValue)
    (h : as.length ≤ n) : (as ++ bs).getD n d = bs.getD (n - as.length) d := by
  induction as generalizing n with
  | nil => simp
  | cons hd tl ih =>
      cases n with
      | zero => simp at h
      | succ m =>
          have h' : tl.length ≤ m := by
            simp only [List.length_cons] at h; omega
          rw [List.cons_append, List.getD_cons_succ, ih m h']
          simp [Nat.succ_sub_succ]

theorem lset_getD_self (xs : List JsValue) (n : Nat) (v d : JsValue) :
    (lset xs n v).getD n d = v := by
  unfold lset
  by_cases h : n < xs.length
  · simp [h, lgetD_set_self xs n v d h]
  · simp only [h, if_false]
    rw [List.append_assoc, getD_append_ge xs _ n d (by omega),
        getD_append_ge _ _ _ d (by simp)]
    simp [List.getD]

theorem splitLast_isSome (l : List Key) (h : l ≠ []) : (splitLast l).isSome = true := by
  induction l with
  | nil => simp at h
  | cons k ks ih =>
      cases ks with
      | nil => simp [splitLast]
      | cons k' ks' =>
          have := ih (by simp)
          unfold splitLast
          match heq : splitLast (k' :: ks') with
          | some (pfx, p) => simp
          | none => rw [heq] at this; simp at this

theorem splitLast_eq_nil (l : List Key) (h : splitLast l = none) : l = [] := by
  by_contra hne
  have := splitLast_isSome l hne
  rw [h] at this
  simp at this

theorem splitLast_append (l : List Key) (pfx : List Key) (p : Key)
    (h : splitLast l = some (pfx, p)) : l = pfx ++ [p] := by
  induction l generalizing pfx with
  | nil => simp [splitLast] at h
  | cons k ks ih =>
      cases ks with
      | nil =>
          simp only [splitLast] at h
          cases h
          simp
      | cons k' ks' =>
          unfold splitLast at h
          match heq : splitLast (k' :: ks') with
          | some (pfx', p') =>
              rw [heq] at h
              simp only [Option.some.injEq, Prod.mk.injEq] at h
              obtain ⟨h1, h2⟩ := h
              subst h2
              rw [← h1]
              simpa using ih pfx' heq
          | none =>
              have := splitLast_eq_nil _ heq
              simp at this

theorem nestedApply_vundefined (p : Key) (v : JsValue) :
    nestedApply p v .vundefined = .error .typeError := rfl

theorem applyAtParent_vundefined (p : Key) (v : JsValue) (ks : List Key) :
    applyAtParent (nestedApply p v) .vundefined ks = .error .typeError := by
  cases ks <;> rfl

/-- A successful final-segment branch with a non-sentinel value leaves
the written value readable at the key. -/
theorem nestedApply_read (p : Key) (v t t' : JsValue) (r : NestedRes)
    (hv : isNone v = false) (h : nestedApply p v t = .ok (t', r)) :
    indexVal t' p = some v := by
  cases t with
  | vobj kvs =>
      simp only [nestedApply] at h
      cases hl : alookup kvs (keyStr p) with
      | some prev =>
          rw [hl] at h
          simp [hv] at h
          obtain ⟨h1, _⟩ := h
          subst h1
          simp [indexVal, alookup_aset_self]
      | none =>
          rw [hl] at h
          simp [hv] at h
          obtain ⟨h1, _⟩ := h
          subst h1
          simp [indexVal, alookup_aset_self]
  | varr xs =>
      simp only [nestedApply] at h
      cases hk : keyIdx p with
      | some n =>
          rw [hk] at h
          by_cases hlen : n < xs.length
          · simp [hlen, hv] at h
            obtain ⟨h1, _⟩ := h
            subst h1
            have hg := lgetD_set_self xs n v JsValue.vundefined hlen
            simp only [indexVal, hk, Option.some.injEq]
            simpa [List.getD] using hg
          · simp [hlen, hv] at h
            obtain ⟨h1, _⟩ := h
            subst h1
            have hg := lset_getD_self xs n v JsValue.vundefined
            simp only [indexVal, hk, Option.some.injEq]
            simpa [List.getD] using hg
      | none => rw [hk] at h; simp at h
  | vnum i => simp [nestedApply] at h
  | vstr s => simp [nestedApply] at h
  | vbool b => simp [nestedApply] at h
  | vnull => simp [nestedApply] at h
  | vundefined => simp [nestedApply] at h
  | vnone => simp [nestedApply] at h
  | vpromise id => simp [nestedApply] at h

/-- Write-back then re-read: after a successful nested write of a
non-sentinel value, the reader walk of the full path reaches it. -/
theorem applyAtParent_getWalk (p : Key) (v : JsValue) (hv : isNone v = false) :
    ∀ (pfx : List Key) (root root' : JsValue) (r : NestedRes),
      applyAtParent (nestedApply p v) root pfx = .ok (root', r) →
      getWalk root' (pfx ++ [p]) = some v := by
  intro pfx
  induction pfx with
  | nil =>
      intro root root' r h
      simp only [applyAtParent] at h
      have := nestedApply_read p v root root' r hv h
      simp [getWalk, this]
  | cons k ks ih =>
      intro root root' r h
      cases root with
      | vobj kvs =>
          simp only [applyAtParent] at h
          match hrec : applyAtParent (nestedApply p v) ((alookup kvs (keyStr k)).getD .vundefined) ks with
          | .ok (child', r') =>
              rw [hrec] at h
              simp only [Except.ok.injEq, Prod.mk.injEq] at h
              obtain ⟨h1, h2⟩ := h
              subst h1
              simp only [List.cons_append, getWalk, indexVal, alookup_aset_self]
              exact ih _ child' r' (by rw [hrec, h2])
          | .error e => rw [hrec] at h; simp at h
      | varr xs =>
          simp only [applyAtParent] at h
          cases hk : keyIdx k with
          | some n =>
              rw [hk] at h
              simp only [] at h
              match hrec : applyAtParent (nestedApply p v) (xs.getD n .vundefined) ks with
              | .ok (child', r') =>
                  rw [hrec] at h
                  simp only [Except.ok.injEq, Prod.mk.injEq] at h
                  obtain ⟨h1, h2⟩ := h
                  subst h1
                  have hlen : n < xs.length := by
                    by_contra hge
                    have hund : xs.getD n .vundefined = .vundefined := by
                      have hle : xs.length ≤ n := by omega
                      simp [List.getD, List.getElem?_eq_none hle]
                    rw [hund, applyAtParent_vundefined] at hrec
                    simp at hrec
                  simp only [List.cons_append, getWalk, indexVal, hk]
                  have hset : (xs.set n child').getD n .vundefined = child' :=
                    lgetD_set_self xs n child' .vundefined hlen
                  rw [hset]
                  exact ih _ child' r' (by rw [hrec, h2])
              | .error e => rw [hrec] at h; simp at h
          | none => rw [hk] at h; simp only [] at h; simp at h
      | vnum i => simp [applyAtParent] at h
      | vstr s => simp [applyAtParent] at h
      | vbool b => simp [applyAtParent] at h
      | vnull => simp [applyAtParent] at h
      | vundefined => simp [applyAtParent] at h
      | vnone => simp [applyAtParent] at h
      | vpromise id => simp [applyAtParent] at h

/-- A successful prefix walk factors through the reader walk: the final
branch ran on the value the reader reaches at the prefix. -/
theorem applyAtParent_walk (f : JsValue → Except JsErr (JsValue × NestedRes)) :
    ∀ (pfx : List Key) (root root' : JsValue) (r : NestedRes),
      applyAtParent f root pfx = .ok (root', r) →
      ∃ t t', getWalk root pfx = some t ∧ f t = .ok (t', r) := by
  intro pfx
  induction pfx with
  | nil =>
      intro root root' r h
      exact ⟨root, root', rfl, h⟩
  | cons k ks ih =>
      intro root root' r h
      cases root with
      | vobj kvs =>
          simp only [applyAtParent] at h
          match hrec : applyAtParent f ((alookup kvs (keyStr k)).getD .vundefined) ks with
          | .ok (child', r') =>
              rw [hrec] at h
              simp only [Except.ok.injEq, Prod.mk.injEq] at h
              obtain ⟨_, h2⟩ := h
              subst h2
              obtain ⟨t, t', hw, hf⟩ := ih _ child' _ hrec
              exact ⟨t, t', by simpa [getWalk, indexVal] using hw, hf⟩
          | .error e => rw [hrec] at h; simp at h
      | varr xs =>
          simp only [applyAtParent] at h
          cases hk : keyIdx k with
          | some n =>
              rw [hk] at h
              simp only [] at h
              match hrec : applyAtParent f (xs.getD n .vundefined) ks with
              | .ok (child', r') =>
                  rw [hrec] at h
                  simp only [Except.ok.injEq, Prod.mk.injEq] at h
                  obtain ⟨_, h2⟩ := h
                  subst h2
                  obtain ⟨t, t', hw, hf⟩ := ih _ child' _ hrec
                  exact ⟨t, t', by simpa [getWalk, indexVal, hk] using hw, hf⟩
              | .error e => rw [hrec] at h; simp at h
          | none => rw [hk] at h; simp only [] at h; simp at h
      | vnum i => simp [applyAtParent] at h
      | vstr s => simp [applyAtParent] at h
      | vbool b => simp [applyAtParent] at h
      | vnull => simp [applyAtParent] at h
      | vundefined => simp [applyAtParent] at h
      | vnone => simp [applyAtParent] at h
      | vpromise id => simp [applyAtParent] at h

/-- The final-segment branch only succeeds on containers and produces
containers. -/
theorem nestedApply_container (p : Key) (v t t' : JsValue) (r : NestedRes)
    (h : nestedApply p v t = .ok (t', r)) :
    isContainer t = true ∧ isContainer t' = true := by
  cases t with
  | vobj kvs =>
      simp only [nestedApply] at h
      refine ⟨rfl, ?_⟩
      cases hl : alookup kvs (keyStr p) with
      | some prev =>
          rw [hl] at h
          by_cases hn : isNone v <;> simp [hn] at h <;>
            obtain ⟨h1, _⟩ := h <;> subst h1 <;> rfl
      | none =>
          rw [hl] at h
          by_cases hn : isNone v <;> simp [hn] at h <;>
            obtain ⟨h1, _⟩ := h <;> subst h1 <;> rfl
  | varr xs =>
      simp only [nestedApply] at h
      refine ⟨rfl, ?_⟩
      cases hk : keyIdx p with
      | some n =>
          rw [hk] at h
          by_cases hlen : n < xs.length <;>
            by_cases hn : isNone v <;> simp [hlen, hn] at h
          · cases p <;> simp at h <;> obtain ⟨h1, _⟩ := h <;> subst h1 <;> rfl
          · obtain ⟨h1, _⟩ := h; subst h1; rfl
          · obtain ⟨h1, _⟩ := h; subst h1; rfl
          · obtain ⟨h1, _⟩ := h; subst h1; rfl
      | none => rw [hk] at h; simp at h
  | vnum i => simp [nestedApply] at h
  | vstr s => simp [nestedApply] at h
  | vbool b => simp [nestedApply] at h
  | vnull => simp [nestedApply] at h
  | vundefined => simp [nestedApply] at h
  | vnone => simp [nestedApply] at h
  | vpromise id => simp [nestedApply] at h

/-- A successful prefix walk starts and ends on containers. -/
theorem applyAtParent_container (p : Key) (v : JsValue) :
    ∀ (pfx : List Key) (root root' : JsValue) (r : NestedRes),
      applyAtParent (nestedApply p v) root pfx = .ok (root', r) →
      isContainer root = true ∧ isContainer root' = true := by
  intro pfx
  induction pfx with
  | nil =>
      intro root root' r h
      exact nestedApply_container p v root root' r h
  | cons k ks ih =>
      intro root root' r h
      cases root with
      | vobj kvs =>
          simp only [applyAtParent] at h
          match hrec : applyAtParent (nestedApply p v) ((alookup kvs (keyStr k)).getD .vundefined) ks with
          | .ok (child', r') =>
              rw [hrec] at h
              simp only [Except.ok.injEq, Prod.mk.injEq] at h
              obtain ⟨h1, _⟩ := h
              subst h1
              exact ⟨rfl, rfl⟩
          | .error e => rw [hrec] at h; simp at h
      | varr xs =>
          simp only [applyAtParent] at h
          cases hk : keyIdx k with
          | some n =>
              rw [hk] at h
              simp only [] at h
              match hrec : applyAtParent (nestedApply p v) (xs.getD n .vundefined) ks with
              | .ok (child', r') =>
                  rw [hrec] at h
                  simp only [Except.ok.injEq, Prod.mk.injEq] at h
                  obtain ⟨h1, _⟩ := h
                  subst h1
                  exact ⟨rfl, rfl⟩
              | .error e => rw [hrec] at h; simp at h
          | none => rw [hk] at h; simp only [] at h; simp at h
      | vnum i => simp [applyAtParent] at h
      | vstr s => simp [applyAtParent] at h
      | vbool b => simp [applyAtParent] at h
      | vnull => simp [applyAtParent] at h
      | vundefined => simp [applyAtParent] at h
      | vnone => simp [applyAtParent] at h
      | vpromise id => simp [applyAtParent] at h

/-- The no-op branch is exactly an absent key together with the delete
sentinel. -/
theorem nestedApply_noop_iff (p : Key) (v t t' : JsValue) (r : NestedRes)
    (h : nestedApply p v t = .ok (t', r)) :
    (r = .noop ↔ (isNone v = true ∧ hasKey t p = some false)) := by
  cases t with
  | vobj kvs =>
      simp only [nestedApply] at h
      cases hl : alookup kvs (keyStr p) with
      | some prev =>
          rw [hl] at h
          by_cases hn : isNone v <;> simp [hn] at h <;>
            obtain ⟨_, h2⟩ := h <;> subst h2 <;> simp [hasKey, hl, hn]
      | none =>
          rw [hl] at h
          by_cases hn : isNone v <;> simp [hn] at h <;>
            obtain ⟨_, h2⟩ := h <;> subst h2 <;> simp [hasKey, hl, hn]
  | varr xs =>
      simp only [nestedApply] at h
      cases hk : keyIdx p with
      | some n =>
          rw [hk] at h
          by_cases hlen : n < xs.length <;>
            by_cases hn : isNone v <;> simp [hlen, hn] at h
          · cases p <;> simp at h <;> obtain ⟨_, h2⟩ := h <;> subst h2 <;>
              simp [hasKey, hk, hlen, hn] at *
          · obtain ⟨_, h2⟩ := h; subst h2; simp [hasKey, hk, hlen, hn]
          · obtain ⟨_, h2⟩ := h; subst h2; simp [hasKey, hk, hlen, hn]
          · obtain ⟨_, h2⟩ := h; subst h2; simp [hasKey, hk, hlen, hn]
      | none => rw [hk] at h; simp at h
  | vnum i => simp [nestedApply] at h
  | vstr s => simp [nestedApply] at h
  | vbool b => simp [nestedApply] at h
  | vnull => simp [nestedApply] at h
  | vundefined => simp [nestedApply] at h
  | vnone => simp [nestedApply] at h
  | vpromise id => simp [nestedApply] at h

theorem storeSet_root_unfold (s : StoreM) (ad : Descriptor) (v : JsValue)
    (mv : Option JsValue) (hsp : splitLast ad.path = none)
    (hde : ¬ s.edition < 0) :
    storeSet s ad v mv = rootSet s ad v mv := by
  unfold storeSet
  simp [hde, hsp]

theorem storeSet_nested_unfold (s : StoreM) (ad : Descriptor) (v : JsValue)
    (mv : Option JsValue) (pfx : List Key) (p : Key)
    (hsp : splitLast ad.path = some (pfx, p)) (hde : ¬ s.edition < 0)
    (hp : isPromiseLike v = false) :
    storeSet s ad v mv
      = (match applyAtParent (nestedApply p v) s.value pfx with
         | .error e => .error e
         | .ok (root', res) => nestedFinish s ad pfx p v mv root' res) := by
  unfold storeSet
  simp [hde, hsp, hp]

theorem finishRoot_store (s1 : StoreM) (v : JsValue) (arg : OnSetArg)
    (ad : Descriptor) (hne : ¬ s1.edition = -1) :
    ∃ evs, finishRoot s1 v arg ad
        = .ok ({ s1 with value := v, edition := s1.edition + 1 }, ad, evs)
      ∧ evs.countP isDestroyFired = 0 := by
  unfold finishRoot afterSet
  simp only [ne_eq, hne, not_false_eq_true, if_true]
  refine ⟨_, rfl, ?_⟩
  split <;> simp [List.countP, List.countP.go, isDestroyFired]

theorem rootSet_plain (s : StoreM) (ad : Descriptor) (v : JsValue)
    (mv : Option JsValue) (hv : isNone v = false) (hp : isPromiseLike v = false)
    (hnp : (match s.promised with
            | some pr => pr.hasSource && !pr.fullfilled
            | none => false) = false)
    (hne : ¬ s.edition = -1) :
    ∃ evs, rootSet s ad v mv
        = .ok ({ s with value := v, edition := s.edition + 1 }, ad, evs)
      ∧ evs.countP isDestroyFired = 0 := by
  unfold rootSet
  simp only [hv, hp, hnp, Bool.false_eq_true, if_false]
  exact finishRoot_store s v _ ad hne

theorem nestedFinish_updated (s : StoreM) (ad : Descriptor) (pfx : List Key)
    (p : Key) (v : JsValue) (mv : Option JsValue) (root' prev : JsValue)
    (hne : ¬ s.edition = -1) :
    nestedFinish s ad pfx p v mv root' (.updated prev)
      = .ok ({ s with value := root', edition := s.edition + 1 }, ad,
             [.pluginSet { path := ad.path, state := some root', value := some v,
                           previous := some prev, merged := mv }]) := by
  unfold nestedFinish afterSet
  simp [hne]

theorem nestedFinish_deleted (s : StoreM) (ad : Descriptor) (pfx : List Key)
    (p : Key) (v : JsValue) (mv : Option JsValue) (root' prev : JsValue)
    (hne : ¬ s.edition = -1) :
    nestedFinish s ad pfx p v mv root' (.deleted prev)
      = .ok ({ s with value := root', edition := s.edition + 1 },
             { path := pfx, actions := some [(keyStr p, .D)] },
             [.pluginSet { path := ad.path, state := some root',
                           previous := some prev, merged := mv }]) := by
  unfold nestedFinish afterSet
  simp [hne]

theorem nestedFinish_inserted (s : StoreM) (ad : Descriptor) (pfx : List Key)
    (p : Key) (v : JsValue) (mv : Option JsValue) (root' : JsValue)
    (hne : ¬ s.edition = -1) :
    nestedFinish s ad pfx p v mv root' .inserted
      = .ok ({ s with value := root', edition := s.edition + 1 },
             { path := pfx, actions := some [(keyStr p, .I)] },
             [.pluginSet { path := ad.path, state := some root',
                           value := some v, merged := mv }]) := by
  unfold nestedFinish afterSet
  simp [hne]

theorem nestedFinish_noop (s : StoreM) (ad : Descriptor) (pfx : List Key)
    (p : Key) (v : JsValue) (mv : Option JsValue) (root' : JsValue) :
    nestedFinish s ad pfx p v mv root' .noop = .ok (s, ad, []) := rfl

/-- With a non-sentinel value the final-segment branch is an update or
an insert. -/
theorem nestedApply_not_none_res (p : Key) (v t t' : JsValue) (r : NestedRes)
    (hv : isNone v = false) (h : nestedApply p v t = .ok (t', r)) :
    (∃ prev, r = .updated prev) ∨ r = .inserted := by
  cases t with
  | vobj kvs =>
      simp only [nestedApply] at h
      cases hl : alookup kvs (keyStr p) with
      | some prev =>
          rw [hl] at h
          simp [hv] at h
          exact Or.inl ⟨prev, h.2.symm⟩
      | none =>
          rw [hl] at h
          simp [hv] at h
          exact Or.inr h.2.symm
  | varr xs =>
      simp only [nestedApply] at h
      cases hk : keyIdx p with
      | some n =>
          rw [hk] at h
          by_cases hlen : n < xs.length
          · simp [hlen, hv] at h
            exact Or.inl ⟨_, h.2.symm⟩
          · simp [hlen, hv] at h
            exact Or.inr h.2.symm
      | none => rw [hk] at h; simp at h
  | vnum i => simp [nestedApply] at h
  | vstr s => simp [nestedApply] at h
  | vbool b => simp [nestedApply] at h
  | vnull => simp [nestedApply] at h
  | vundefined => simp [nestedApply] at h
  | vnone => simp [nestedApply] at h
  | vpromise id => simp [nestedApply] at h

theorem isNone_of_container {w : JsValue} (h : isContainer w = true) :
    isNone w = false := by
  cases w <;> simp [isContainer] at h <;> rfl

/-- Claim C1, amended: for a value that is neither the delete sentinel
nor promise-like, a successful Store.set at any path followed by
Store.get of that path returns exactly the written value, and the
edition advances by exactly one.  (The claim as frozen also covers the
delete sentinel and promise-like roots, where it fails; see the
counterexample.) -/
theorem c1_read_after_write (s : StoreM) (ad : Descriptor) (v : JsValue)
    (mv : Option JsValue) (s' : StoreM) (ad' : Descriptor) (evs : List Event)
    (hv : isNone v = false) (hp : isPromiseLike v = false)
    (hok : storeSet s ad v mv = .ok (s', ad', evs)) :
    storeGet s' ad.path = some v ∧ s'.edition = s.edition + 1 := by
  by_cases hde : s.edition < 0
  · unfold storeSet at hok
    simp [hde] at hok
  · match hsp : splitLast ad.path with
    | none =>
        have hpath := splitLast_eq_nil _ hsp
        have hne : ¬ s.edition = -1 := by omega
        rw [storeSet_root_unfold s ad v mv hsp hde] at hok
        by_cases hc : (match s.promised with
                       | some pr => pr.hasSource && !pr.fullfilled
                       | none => false) = true
        · unfold rootSet at hok
          simp only [hv, hp, Bool.false_eq_true, if_false, hc, if_true] at hok
          exact absurd hok (by simp)
        · obtain ⟨evs0, heq, _⟩ :=
            rootSet_plain s ad v mv hv hp (by simpa using hc) hne
          rw [heq] at hok
          simp only [Except.ok.injEq, Prod.mk.injEq] at hok
          obtain ⟨h1, _, _⟩ := hok
          subst h1
          refine ⟨?_, rfl⟩
          rw [hpath]
          simp [storeGet, hv, getWalk]
    | some (pfx, p) =>
        have hpath := splitLast_append _ _ _ hsp
        have hne : ¬ s.edition = -1 := by omega
        rw [storeSet_nested_unfold s ad v mv pfx p hsp hde hp] at hok
        match happ : applyAtParent (nestedApply p v) s.value pfx with
        | .error e => rw [happ] at hok; simp at hok
        | .ok (root', res) =>
            rw [happ] at hok
            simp only [] at hok
            have hwalkv := applyAtParent_getWalk p v hv pfx s.value root' res happ
            have hcont := (applyAtParent_container p v pfx s.value root' res happ).2
            cases res with
            | updated prev =>
                rw [nestedFinish_updated s ad pfx p v mv root' prev hne] at hok
                simp only [Except.ok.injEq, Prod.mk.injEq] at hok
                obtain ⟨h1, _, _⟩ := hok
                subst h1
                refine ⟨?_, rfl⟩
                rw [hpath]
                simp [storeGet, isNone_of_container hcont, hwalkv]
            | inserted =>
                rw [nestedFinish_inserted s ad pfx p v mv root' hne] at hok
                simp only [Except.ok.injEq, Prod.mk.injEq] at hok
                obtain ⟨h1, _, _⟩ := hok
                subst h1
                refine ⟨?_, rfl⟩
                rw [hpath]
                simp [storeGet, isNone_of_container hcont, hwalkv]
            | deleted prev =>
                obtain ⟨t, t', hw, hf⟩ :=
                  applyAtParent_walk _ pfx s.value root' _ happ
                rcases nestedApply_not_none_res p v t t' _ hv hf with ⟨prev', hres⟩ | hres <;>
                  simp at hres
            | noop =>
                obtain ⟨t, t', hw, hf⟩ :=
                  applyAtParent_walk _ pfx s.value root' _ happ
                rcases nestedApply_not_none_res p v t t' _ hv hf with ⟨prev', hres⟩ | hres <;>
                  simp at hres

/-- Claim C1, counterexample to the frozen statement: deleting the
existing key a (a successful write of the delete sentinel, edition 0 to
1) leaves get at that path producing undefined, not the written
sentinel. -/
theorem c1_counterexample :
    storeSet (mkStore (.vobj [("a", .vnum 1)])) { path := [Key.str "a"] } .vnone none
      = .ok ({ value := .vobj [], edition := 1, promised := none },
             { path := [], actions := some [("a", Act.D)] },
             [.pluginSet { path := [Key.str "a"], state := some (.vobj []),
                           previous := some (.vnum 1), merged := none }])
  ∧ storeGet { value := .vobj [], edition := 1, promised := none } [Key.str "a"]
      = some .vundefined
  ∧ JsValue.vundefined ≠ JsValue.vnone := by
  refine ⟨rfl, rfl, ?_⟩
  intro h
  cases h

/-- Witness for c1_read_after_write at a concrete update. -/
theorem c1_read_after_write_witness :
    isNone (JsValue.vnum 2) = false ∧ isPromiseLike (JsValue.vnum 2) = false
  ∧ storeGet { value := .vobj [("a", .vnum 2)], edition := 1, promised := none }
      [Key.str "a"] = some (JsValue.vnum 2)
  ∧ ({ value := .vobj [("a", .vnum 2)], edition := 1, promised := none } : StoreM).edition
      = (mkStore (.vobj [("a", .vnum 1)])).edition + 1 := by
  have h := c1_read_after_write (mkStore (.vobj [("a", .vnum 1)]))
    { path := [Key.str "a"] } (.vnum 2) none
    { value := .vobj [("a", .vnum 2)], edition := 1, promised := none }
    { path := [Key.str "a"] }
    [.pluginSet { path := [Key.str "a"], state := some (.vobj [("a", .vnum 2)]),
                  value := some (.vnum 2), previous := some (.vnum 1), merged := none }]
    rfl rfl rfl
  exact ⟨rfl, rfl, h.1, h.2⟩

/-- Claim C2, amended: a nested write accepted by Store.set increments
the edition by exactly one in the update, delete and insert branches
(equivalently: whenever the value is not the delete sentinel, or the
key exists); in the remaining no-op branch (key absent, delete
sentinel) the store is unchanged — the edition does not increment — and
the unmodified input descriptor is returned with no callback fired.
(The claim as frozen asserts an edition bump in the no-op branch too;
see the counterexample.) -/
theorem c2_edition_branches (s : StoreM) (ad : Descriptor) (v : JsValue)
    (mv : Option JsValue) (pfx : List Key) (p : Key) (s' : StoreM)
    (ad' : Descriptor) (evs : List Event)
    (hsp : splitLast ad.path = some (pfx, p))
    (hok : storeSet s ad v mv = .ok (s', ad', evs)) :
    ((isNone v = false ∨ hasKeyAt s.value pfx p = some true) →
        s'.edition = s.edition + 1)
  ∧ (isNone v = true → hasKeyAt s.value pfx p = some false →
        s' = s ∧ ad' = ad ∧ evs = []) := by
  by_cases hde : s.edition < 0
  · unfold storeSet at hok
    simp [hde] at hok
  · have hne : ¬ s.edition = -1 := by omega
    by_cases hp : isPromiseLike v = true
    · unfold storeSet at hok
      simp [hde, hsp, hp] at hok
    · have hp' : isPromiseLike v = false := by simpa using hp
      rw [storeSet_nested_unfold s ad v mv pfx p hsp hde hp'] at hok
      match happ : applyAtParent (nestedApply p v) s.value pfx with
      | .error e => rw [happ] at hok; simp at hok
      | .ok (root', res) =>
          rw [happ] at hok
          simp only [] at hok
          obtain ⟨t, t', hw, hf⟩ := applyAtParent_walk _ pfx s.value root' _ happ
          have hkey : hasKeyAt s.value pfx p = hasKey t p := by
            simp [hasKeyAt, hw]
          have hniff := nestedApply_noop_iff p v t t' _ hf
          cases res with
          | updated prev =>
              rw [nestedFinish_updated s ad pfx p v mv root' prev hne] at hok
              simp only [Except.ok.injEq, Prod.mk.injEq] at hok
              obtain ⟨h1, _, _⟩ := hok
              subst h1
              refine ⟨fun _ => rfl, fun h1 h2 => ?_⟩
              rw [hkey] at h2
              exact absurd (hniff.mpr ⟨h1, h2⟩) (by simp)
          | deleted prev =>
              rw [nestedFinish_deleted s ad pfx p v mv root' prev hne] at hok
              simp only [Except.ok.injEq, Prod.mk.injEq] at hok
              obtain ⟨h1, _, _⟩ := hok
              subst h1
              refine ⟨fun _ => rfl, fun h1 h2 => ?_⟩
              rw [hkey] at h2
              exact absurd (hniff.mpr ⟨h1, h2⟩) (by simp)
          | inserted =>
              rw [nestedFinish_inserted s ad pfx p v mv root' hne] at hok
              simp only [Except.ok.injEq, Prod.mk.injEq] at hok
              obtain ⟨h1, _, _⟩ := hok
              subst h1
              refine ⟨fun _ => rfl, fun h1 h2 => ?_⟩
              rw [hkey] at h2
              exact absurd (hniff.mpr ⟨h1, h2⟩) (by simp)
          | noop =>
              rw [nestedFinish_noop] at hok
              simp only [Except.ok.injEq, Prod.mk.injEq] at hok
              obtain ⟨h1, h2, h3⟩ := hok
              obtain ⟨hn, hkf⟩ := hniff.mp rfl
              refine ⟨fun hd => ?_, fun _ _ => ⟨h1.symm, h2.symm, h3.symm⟩⟩
              rcases hd with hd | hd
              · rw [hn] at hd; cases hd
              · rw [hkey, hkf] at hd
                simp at hd

/-- Claim C2, counterexample to the frozen statement: writing the delete
sentinel at an absent key of the empty root object is accepted, returns
the unmodified descriptor, and leaves the edition at 0 — it does not
increment. -/
theorem c2_counterexample :
    storeSet (mkStore (.vobj [])) { path := [Key.str "a"] } .vnone none
      = .ok (mkStore (.vobj []), { path := [Key.str "a"] }, [])
  ∧ (mkStore (.vobj [])).edition = 0
  ∧ ¬ ((0 : Int) = 0 + 1) := ⟨rfl, rfl, by decide⟩

/-- Witness for c2_edition_branches at a concrete delete of an existing
key. -/
theorem c2_edition_branches_witness :
    hasKeyAt (mkStore (.vobj [("a", .vnum 1)])).value [] (Key.str "a") = some true
  ∧ ({ value := .vobj [], edition := 1, promised := none } : StoreM).edition
      = (mkStore (.vobj [("a", .vnum 1)])).edition + 1 := by
  have h := c2_edition_branches (mkStore (.vobj [("a", .vnum 1)]))
    { path := [Key.str "a"] } .vnone none [] (Key.str "a")
    { value := .vobj [], edition := 1, promised := none }
    { path := [], actions := some [("a", Act.D)] }
    [.pluginSet { path := [Key.str "a"], state := some (.vobj []),
                  previous := some (.vnum 1), merged := none }]
    rfl rfl
  exact ⟨rfl, h.1 (Or.inr rfl)⟩

/-- Claim C4, amended: a root write of a value that is neither the
delete sentinel nor promise-like fails with SetWhilePendingError exactly
when a live store holds a PendingValue that HAS a source promise (its
bare resolver is absent) and is not yet fulfilled; otherwise, when
accepted, it replaces the root value and bumps the edition.  (The
frozen claim inverts the condition — it requires the absence of a
source promise — see the counterexample, where a pending value with no
source and not yet fulfilled lets the write through.) -/
theorem c4_set_while_promised (s : StoreM) (v : JsValue) (mv : Option JsValue)
    (hv : isNone v = false) (hp : isPromiseLike v = false) :
    (storeSet s { path := [] } v mv = .error .setWhilePromised ↔
       (¬ s.edition < 0 ∧ ∃ pr, s.promised = some pr ∧
          pr.hasSource = true ∧ pr.fullfilled = false))
  ∧ (∀ s' ad' evs, storeSet s { path := [] } v mv = .ok (s', ad', evs) →
       s'.value = v ∧ s'.edition = s.edition + 1 ∧ s'.promised = s.promised) := by
  by_cases hde : s.edition < 0
  · constructor
    · unfold storeSet
      simp [hde]
    · intro s' ad' evs hok
      unfold storeSet at hok
      simp [hde] at hok
  · have hne : ¬ s.edition = -1 := by omega
    have hru : storeSet s { path := [] } v mv = rootSet s { path := [] } v mv :=
      storeSet_root_unfold s { path := [] } v mv rfl hde
    by_cases hc : (match s.promised with
                   | some pr => pr.hasSource && !pr.fullfilled
                   | none => false) = true
    · constructor
      · rw [hru]
        unfold rootSet
        simp only [hv, hp, Bool.false_eq_true, if_false, hc, if_true]
        constructor
        · intro _
          refine ⟨hde, ?_⟩
          match hpr : s.promised with
          | some pr =>
              rw [hpr] at hc
              simp only [Bool.and_eq_true, Bool.not_eq_true'] at hc
              exact ⟨pr, rfl, hc.1, hc.2⟩
          | none => rw [hpr] at hc; simp at hc
        · intro _
          trivial
      · intro s' ad' evs hok
        rw [hru] at hok
        unfold rootSet at hok
        simp only [hv, hp, Bool.false_eq_true, if_false, hc, if_true] at hok
        exact absurd hok (by simp)
    · have hc' : (match s.promised with
                  | some pr => pr.hasSource && !pr.fullfilled
                  | none => false) = false := by simpa using hc
      obtain ⟨evs0, heq, _⟩ :=
        rootSet_plain s { path := [] } v mv hv hp hc' hne
      constructor
      · rw [hru, heq]
        constructor
        · intro habs
          simp at habs
        · intro ⟨_, pr, hpr, hsrc, hful⟩
          rw [hpr] at hc'
          simp [hsrc, hful] at hc'
      · intro s' ad' evs hok
        rw [hru, heq] at hok
        simp only [Except.ok.injEq, Prod.mk.injEq] at hok
        obtain ⟨h1, _, _⟩ := hok
        subst h1
        exact ⟨rfl, rfl, rfl⟩

/-- Claim C4, counterexample to the frozen statement: a store created
from the delete sentinel holds a PendingValue with NO source promise
(hasSource false) that is not yet fulfilled; the frozen claim requires
this root write to fail with SetWhilePendingError, but it succeeds and
replaces the root value, leaving the pending wrapper installed. -/
theorem c4_counterexample :
    (mkStore .vnone).promised
      = some { hasSource := false, fullfilled := false, hasError := false }
  ∧ storeSet (mkStore .vnone) { path := [] } (.vnum 5) none
      = .ok ({ value := .vnum 5, edition := 1,
               promised := some { hasSource := false, fullfilled := false,
                                  hasError := false } },
             { path := [] },
             [.pluginSet { path := [], state := some (.vnum 5),
                           value := some (.vnum 5), previous := none,
                           merged := none },
              .resolverInvoked (.vnum 5)]) := ⟨rfl, rfl⟩

/-- Witness for c4_set_while_promised at a store pending on a source
promise. -/
theorem c4_set_while_promised_witness :
    isNone (JsValue.vnum 7) = false ∧ isPromiseLike (JsValue.vnum 7) = false
  ∧ storeSet (mkStore (.vpromise 0)) { path := [] } (.vnum 7) none
      = .error .setWhilePromised := by
  refine ⟨rfl, rfl, ?_⟩
  exact (c4_set_while_promised (mkStore (.vpromise 0)) (.vnum 7) none rfl rfl).1.mpr
    ⟨by decide, { hasSource := true, fullfilled := false, hasError := false },
     rfl, rfl, rfl⟩

theorem isNone_eq_true {v : JsValue} : isNone v = true ↔ v = .vnone := by
  cases v <;> simp [isNone]

theorem isNone_of_promiseLike {v : JsValue} (h : isPromiseLike v = true) :
    isNone v = false := by
  cases v <;> first | rfl | simp [isPromiseLike] at h

theorem rootSet_none_branch (s : StoreM) (ad : Descriptor) (mv : Option JsValue) :
    rootSet s ad .vnone mv
      = finishRoot { s with promised := some (createPromised none) } .vnone
          { path := [], state := none, value := none,
            previous := some s.value, merged := mv } ad := by
  unfold rootSet
  simp [isNone]

theorem rootSet_promise_branch (s : StoreM) (ad : Descriptor) (v : JsValue)
    (mv : Option JsValue) (hp : isPromiseLike v = true) :
    rootSet s ad v mv
      = finishRoot { s with promised := some (createPromised (some v)) } .vnone
          { path := [], state := none, value := none,
            previous := some s.value, merged := mv } ad := by
  unfold rootSet
  simp [isNone_of_promiseLike hp, hp]

/-- Any accepted write leaves a store whose absent root still carries a
pending wrapper, with a non-negative edition. -/
theorem storeSet_wf (s : StoreM) (ad : Descriptor) (v : JsValue)
    (mv : Option JsValue) (s' : StoreM) (ad' : Descriptor) (evs : List Event)
    (hok : storeSet s ad v mv = .ok (s', ad', evs)) :
    (s'.value = .vnone → s'.promised.isSome = true) ∧ 0 ≤ s'.edition := by
  by_cases hde : s.edition < 0
  · unfold storeSet at hok
    simp [hde] at hok
  · have hne : ¬ s.edition = -1 := by omega
    match hsp : splitLast ad.path with
    | none =>
        rw [storeSet_root_unfold s ad v mv hsp hde] at hok
        by_cases h1 : isNone v = true
        · rw [isNone_eq_true.mp h1, rootSet_none_branch] at hok
          obtain ⟨evs0, heq, _⟩ :=
            finishRoot_store { s with promised := some (createPromised none) }
              .vnone _ ad hne
          rw [heq] at hok
          simp only [Except.ok.injEq, Prod.mk.injEq] at hok
          obtain ⟨hs, _, _⟩ := hok
          subst hs
          exact ⟨fun _ => rfl, by show (0:Int) ≤ s.edition + 1; omega⟩
        · by_cases h2 : isPromiseLike v = true
          · rw [rootSet_promise_branch s ad v mv h2] at hok
            obtain ⟨evs0, heq, _⟩ :=
              finishRoot_store { s with promised := some (createPromised (some v)) }
                .vnone _ ad hne
            rw [heq] at hok
            simp only [Except.ok.injEq, Prod.mk.injEq] at hok
            obtain ⟨hs, _, _⟩ := hok
            subst hs
            exact ⟨fun _ => rfl, by show (0:Int) ≤ s.edition + 1; omega⟩
          · have h1' : isNone v = false := by simpa using h1
            have h2' : isPromiseLike v = false := by simpa using h2
            by_cases hc : (match s.promised with
                           | some pr => pr.hasSource && !pr.fullfilled
                           | none => false) = true
            · unfold rootSet at hok
              simp only [h1', h2', Bool.false_eq_true, if_false, hc, if_true] at hok
              exact absurd hok (by simp)
            · obtain ⟨evs0, heq, _⟩ :=
                rootSet_plain s ad v mv h1' h2' (by simpa using hc) hne
              rw [heq] at hok
              simp only [Except.ok.injEq, Prod.mk.injEq] at hok
              obtain ⟨hs, _, _⟩ := hok
              subst hs
              refine ⟨fun hv2 => ?_, by show (0:Int) ≤ s.edition + 1; omega⟩
              exact absurd hv2 (isNone_eq_false.mp h1')
    | some (pfx, p) =>
        by_cases hp2 : isPromiseLike v = true
        · unfold storeSet at hok
          simp [hde, hsp, hp2] at hok
        · have hp2' : isPromiseLike v = false := by simpa using hp2
          rw [storeSet_nested_unfold s ad v mv pfx p hsp hde hp2'] at hok
          match happ : applyAtParent (nestedApply p v) s.value pfx with
          | .error e => rw [happ] at hok; simp at hok
          | .ok (root', res) =>
              rw [happ] at hok
              simp only [] at hok
              have hcr := applyAtParent_container p v pfx s.value root' res happ
              cases res with
              | updated prev =>
                  rw [nestedFinish_updated s ad pfx p v mv root' prev hne] at hok
                  simp only [Except.ok.injEq, Prod.mk.injEq] at hok
                  obtain ⟨hs, _, _⟩ := hok
                  subst hs
                  exact ⟨fun hv2 => absurd hv2 (isNone_eq_false.mp (isNone_of_container hcr.2)),
                         by show (0:Int) ≤ s.edition + 1; omega⟩
              | deleted prev =>
                  rw [nestedFinish_deleted s ad pfx p v mv root' prev hne] at hok
                  simp only [Except.ok.injEq, Prod.mk.injEq] at hok
                  obtain ⟨hs, _, _⟩ := hok
                  subst hs
                  exact ⟨fun hv2 => absurd hv2 (isNone_eq_false.mp (isNone_of_container hcr.2)),
                         by show (0:Int) ≤ s.edition + 1; omega⟩
              | inserted =>
                  rw [nestedFinish_inserted s ad pfx p v mv root' hne] at hok
                  simp only [Except.ok.injEq, Prod.mk.injEq] at hok
                  obtain ⟨hs, _, _⟩ := hok
                  subst hs
                  exact ⟨fun hv2 => absurd hv2 (isNone_eq_false.mp (isNone_of_container hcr.2)),
                         by show (0:Int) ≤ s.edition + 1; omega⟩
              | noop =>
                  rw [nestedFinish_noop] at hok
                  simp only [Except.ok.injEq, Prod.mk.injEq] at hok
                  obtain ⟨hs, _, _⟩ := hok
                  subst hs
                  exact ⟨fun hv2 => absurd hv2 (isNone_eq_false.mp (isNone_of_container hcr.1)),
                         by omega⟩

theorem finishRoot_isOk (s1 : StoreM) (v : JsValue) (arg : OnSetArg)
    (ad : Descriptor) : ∃ out, finishRoot s1 v arg ad = .ok out := ⟨_, rfl⟩

/-- A root write on a live store with no pending wrapper never throws. -/
theorem storeSet_total_no_promised (s : StoreM) (v : JsValue)
    (hpr : s.promised = none) (hde : ¬ s.edition < 0) :
    ∃ out, storeSet s { path := [] } v none = .ok out := by
  rw [storeSet_root_unfold s { path := [] } v none rfl hde]
  by_cases h1 : isNone v = true
  · rw [isNone_eq_true.mp h1, rootSet_none_branch]
    exact finishRoot_isOk _ _ _ _
  · by_cases h2 : isPromiseLike v = true
    · rw [rootSet_promise_branch s _ v none h2]
      exact finishRoot_isOk _ _ _ _
    · unfold rootSet
      simp only [h1, h2, Bool.false_eq_true, if_false, hpr]
      exact finishRoot_isOk _ _ _ _

/-- Claim C3, amended: at construction and under every operation (root
write, nested write, promise settlement, rejection, destroy) the store
keeps the direction of the pending invariant that the code maintains:
whenever the root value is the NONE sentinel, the pending wrapper is
defined (together with the edition never dropping below the destroyed
marker).  The claimed converse — a defined wrapper forcing an absent
root — is false: a root write that completes a pending value does not
clear the wrapper; see the counterexample. -/
theorem c3_invariant_preserved :
    (∀ v, storeWf (mkStore v)) ∧
    (∀ s op, storeWf s → storeWf (runOp s op).1) := by
  constructor
  · intro v
    unfold storeWf rootNoneImpliesPromised mkStore
    split_ifs with h1 h2
    · exact ⟨fun _ => rfl, by show (-1:Int) ≤ 0; decide⟩
    · exact ⟨fun _ => rfl, by show (-1:Int) ≤ 0; decide⟩
    · refine ⟨fun hv => ?_, by show (-1:Int) ≤ 0; decide⟩
      exact absurd hv (isNone_eq_false.mp (by simpa using h2))
  · intro s op hwf
    obtain ⟨hinv, hed⟩ := hwf
    cases op with
    | opSet path v =>
        show storeWf (match storeSet s { path := path } v none with
                      | .ok (s', _, evs) => (s', evs)
                      | .error _ => (s, [])).1
        match hset : storeSet s { path := path } v none with
        | .ok (s', ad', evs) =>
            have hws := storeSet_wf s _ v none s' ad' evs hset
            show storeWf s'
            exact ⟨hws.1, by omega⟩
        | .error e => exact ⟨hinv, hed⟩
    | opResolve r =>
        show storeWf (match s.promised with
                      | some p =>
                          if p.hasSource && !p.fullfilled then
                            if s.edition ≠ -1 then
                              match storeSet { s with promised := none } { path := [] } r none with
                              | .ok (s2, _, evs) => (s2, evs)
                              | .error _ => ({ s with promised := none }, [])
                            else ({ s with promised := some { p with fullfilled := true } }, [])
                          else (s, [])
                      | none => (s, [])).1
        match hpr : s.promised with
        | some p =>
            by_cases hps : (p.hasSource && !p.fullfilled) = true
            · simp only [hps, if_true]
              by_cases hne : s.edition ≠ -1
              · rw [if_pos hne]
                have hde2 : ¬ ({ s with promised := none } : StoreM).edition < 0 := by
                  show ¬ s.edition < 0; omega
                obtain ⟨⟨s2, ad2, evs2⟩, hout⟩ :=
                  storeSet_total_no_promised { s with promised := none } r rfl hde2
                rw [hout]
                have hws := storeSet_wf _ _ _ _ _ _ _ hout
                show storeWf s2
                exact ⟨hws.1, by omega⟩
              · rw [if_neg hne]
                exact ⟨fun _ => rfl, hed⟩
            · simp only [hps, Bool.false_eq_true, if_false]
              exact ⟨hinv, hed⟩
        | none => exact ⟨hinv, hed⟩
    | opReject =>
        show storeWf (match s.promised with
                      | some p =>
                          if p.hasSource && !p.fullfilled then
                            if s.edition ≠ -1 then
                              ({ s with promised := some { p with fullfilled := true, hasError := true },
                                        edition := s.edition + 1 }, [])
                            else ({ s with promised := some { p with fullfilled := true, hasError := true } }, [])
                          else (s, [])
                      | none => (s, [])).1
        match hpr : s.promised with
        | some p =>
            by_cases hps : (p.hasSource && !p.fullfilled) = true
            · simp only [hps, if_true]
              by_cases hne : s.edition ≠ -1
              · rw [if_pos hne]
                exact ⟨fun _ => rfl, by show (-1:Int) ≤ s.edition + 1; omega⟩
              · rw [if_neg hne]
                exact ⟨fun _ => rfl, hed⟩
            · simp only [hps, Bool.false_eq_true, if_false]
              exact ⟨hinv, hed⟩
        | none => exact ⟨hinv, hed⟩
    | opDestroy =>
        exact ⟨hinv, by show (-1:Int) ≤ -1; omega⟩

/-- Claim C3, counterexample to the frozen two-sided invariant: the
store created from the delete sentinel satisfies it, but one accepted
root write (which completes the bare pending value without clearing the
wrapper) leaves rootValue = 5 while the pending wrapper is still
defined. -/
theorem c3_counterexample :
    storeInvIff (mkStore .vnone)
  ∧ (runOp (mkStore .vnone) (.opSet [] (.vnum 5))).1
      = { value := .vnum 5, edition := 1,
          promised := some { hasSource := false, fullfilled := false,
                             hasError := false } }
  ∧ ¬ storeInvIff { value := .vnum 5, edition := 1,
                    promised := some { hasSource := false, fullfilled := false,
                                       hasError := false } } := by
  refine ⟨⟨fun _ => rfl, fun _ => rfl⟩, rfl, fun h => ?_⟩
  have := h.mpr rfl
  cases this

/-- Witness for c3_invariant_preserved at a concrete store and
operation. -/
theorem c3_invariant_preserved_witness :
    storeWf (mkStore (.vnum 1))
  ∧ storeWf (runOp (mkStore (.vnum 1)) .opDestroy).1 := by
  have hwf : storeWf (mkStore (.vnum 1)) := by
    refine ⟨fun h => ?_, by decide⟩
    exact absurd h (by intro hh; cases hh)
  exact ⟨hwf, c3_invariant_preserved.2 (mkStore (.vnum 1)) .opDestroy hwf⟩

/-- No store write ever fires a destroy callback. -/
theorem storeSet_destroy_free (s : StoreM) (ad : Descriptor) (v : JsValue)
    (mv : Option JsValue) (s' : StoreM) (ad' : Descriptor) (evs : List Event)
    (hok : storeSet s ad v mv = .ok (s', ad', evs)) :
    evs.countP isDestroyFired = 0 := by
  by_cases hde : s.edition < 0
  · unfold storeSet at hok
    simp [hde] at hok
  · have hne : ¬ s.edition = -1 := by omega
    match hsp : splitLast ad.path with
    | none =>
        rw [storeSet_root_unfold s ad v mv hsp hde] at hok
        by_cases h1 : isNone v = true
        · rw [isNone_eq_true.mp h1, rootSet_none_branch] at hok
          obtain ⟨evs0, heq, hcnt⟩ :=
            finishRoot_store { s with promised := some (createPromised none) }
              .vnone _ ad hne
          rw [heq] at hok
          simp only [Except.ok.injEq, Prod.mk.injEq] at hok
          obtain ⟨_, _, h3⟩ := hok
          rw [← h3]
          exact hcnt
        · by_cases h2 : isPromiseLike v = true
          · rw [rootSet_promise_branch s ad v mv h2] at hok
            obtain ⟨evs0, heq, hcnt⟩ :=
              finishRoot_store { s with promised := some (createPromised (some v)) }
                .vnone _ ad hne
            rw [heq] at hok
            simp only [Except.ok.injEq, Prod.mk.injEq] at hok
            obtain ⟨_, _, h3⟩ := hok
            rw [← h3]
            exact hcnt
          · have h1' : isNone v = false := by simpa using h1
            have h2' : isPromiseLike v = false := by simpa using h2
            by_cases hc : (match s.promised with
                           | some pr => pr.hasSource && !pr.fullfilled
                           | none => false) = true
            · unfold rootSet at hok
              simp only [h1', h2', Bool.false_eq_true, if_false, hc, if_true] at hok
              exact absurd hok (by simp)
            · obtain ⟨evs0, heq, hcnt⟩ :=
                rootSet_plain s ad v mv h1' h2' (by simpa using hc) hne
              rw [heq] at hok
              simp only [Except.ok.injEq, Prod.mk.injEq] at hok
              obtain ⟨_, _, h3⟩ := hok
              rw [← h3]
              exact hcnt
    | some (pfx, p) =>
        by_cases hp2 : isPromiseLike v = true
        · unfold storeSet at hok
          simp [hde, hsp, hp2] at hok
        · have hp2' : isPromiseLike v = false := by simpa using hp2
          rw [storeSet_nested_unfold s ad v mv pfx p hsp hde hp2'] at hok
          match happ : applyAtParent (nestedApply p v) s.value pfx with
          | .error e => rw [happ] at hok; simp at hok
          | .ok (root', res) =>
              rw [happ] at hok
              simp only [] at hok
              cases res with
              | updated prev =>
                  rw [nestedFinish_updated s ad pfx p v mv root' prev hne] at hok
                  simp only [Except.ok.injEq, Prod.mk.injEq] at hok
                  rw [← hok.2.2]
                  simp [List.countP, List.countP.go, isDestroyFired]
              | deleted prev =>
                  rw [nestedFinish_deleted s ad pfx p v mv root' prev hne] at hok
                  simp only [Except.ok.injEq, Prod.mk.injEq] at hok
                  rw [← hok.2.2]
                  simp [List.countP, List.countP.go, isDestroyFired]
              | inserted =>
                  rw [nestedFinish_inserted s ad pfx p v mv root' hne] at hok
                  simp only [Except.ok.injEq, Prod.mk.injEq] at hok
                  rw [← hok.2.2]
                  simp [List.countP, List.countP.go, isDestroyFired]
              | noop =>
                  rw [nestedFinish_noop] at hok
                  simp only [Except.ok.injEq, Prod.mk.injEq] at hok
                  rw [← hok.2.2]
                  simp [List.countP, List.countP.go]

/-- A destroyed store stays destroyed under every operation. -/
theorem runOp_destroyed (s : StoreM) (op : StoreOp) (h : s.edition = -1) :
    (runOp s op).1.edition = -1 := by
  cases op with
  | opSet path v =>
      have herr : storeSet s { path := path } v none = .error .destroyed := by
        unfold storeSet
        simp [show s.edition < 0 by omega]
      show (match storeSet s { path := path } v none with
            | .ok (s', _, evs) => (s', evs)
            | .error _ => (s, [])).1.edition = -1
      rw [herr]
      exact h
  | opResolve r =>
      show (match s.promised with
            | some p =>
                if p.hasSource && !p.fullfilled then
                  if s.edition ≠ -1 then
                    match storeSet { s with promised := none } { path := [] } r none with
                    | .ok (s2, _, evs) => (s2, evs)
                    | .error _ => ({ s with promised := none }, [])
                  else ({ s with promised := some { p with fullfilled := true } }, [])
                else (s, [])
            | none => (s, [])).1.edition = -1
      match s.promised with
      | some p =>
          by_cases hps : (p.hasSource && !p.fullfilled) = true
          · simp only [hps, if_true]
            rw [if_neg (by omega)]
            exact h
          · simp only [hps, Bool.false_eq_true, if_false]
            exact h
      | none => exact h
  | opReject =>
      show (match s.promised with
            | some p =>
                if p.hasSource && !p.fullfilled then
                  if s.edition ≠ -1 then
                    ({ s with promised := some { p with fullfilled := true, hasError := true },
                              edition := s.edition + 1 }, [])
                  else ({ s with promised := some { p with fullfilled := true, hasError := true } }, [])
                else (s, [])
            | none => (s, [])).1.edition = -1
      match s.promised with
      | some p =>
          by_cases hps : (p.hasSource && !p.fullfilled) = true
          · simp only [hps, if_true]
            rw [if_neg (by omega)]
            exact h
          · simp only [hps, Bool.false_eq_true, if_false]
            exact h
      | none => exact h
  | opDestroy => rfl

/-- Each operation fires the destroy-callback round exactly when it is a
destroy, and then exactly once. -/
theorem runOp_destroy_count (s : StoreM) (op : StoreOp) :
    ((runOp s op).2).countP isDestroyFired
      = (if isDestroyOp op then 1 else 0) := by
  cases op with
  | opSet path v =>
      show (match storeSet s { path := path } v none with
            | .ok (s', _, evs) => (s', evs)
            | .error _ => (s, [])).2.countP isDestroyFired = 0
      match hset : storeSet s { path := path } v none with
      | .ok (s', ad', evs) => exact storeSet_destroy_free s _ v none s' ad' evs hset
      | .error e => simp [List.countP, List.countP.go]
  | opResolve r =>
      show (match s.promised with
            | some p =>
                if p.hasSource && !p.fullfilled then
                  if s.edition ≠ -1 then
                    match storeSet { s with promised := none } { path := [] } r none with
                    | .ok (s2, _, evs) => (s2, evs)
                    | .error _ => ({ s with promised := none }, [])
                  else ({ s with promised := some { p with fullfilled := true } }, [])
                else (s, [])
            | none => (s, [])).2.countP isDestroyFired = 0
      match s.promised with
      | some p =>
          by_cases hps : (p.hasSource && !p.fullfilled) = true
          · simp only [hps, if_true]
            by_cases hne : s.edition ≠ -1
            · rw [if_pos hne]
              match hset : storeSet { s with promised := none } { path := [] } r none with
              | .ok (s2, ad2, evs2) => exact storeSet_destroy_free _ _ _ _ s2 ad2 evs2 hset
              | .error e => simp [List.countP, List.countP.go]
            · rw [if_neg hne]
              simp [List.countP, List.countP.go]
          · simp only [hps, Bool.false_eq_true, if_false]
            simp [List.countP, List.countP.go]
      | none => simp [List.countP, List.countP.go]
  | opReject =>
      show (match s.promised with
            | some p =>
                if p.hasSource && !p.fullfilled then
                  if s.edition ≠ -1 then
                    ({ s with promised := some { p with fullfilled := true, hasError := true },
                              edition := s.edition + 1 }, [])
                  else ({ s with promised := some { p with fullfilled := true, hasError := true } }, [])
                else (s, [])
            | none => (s, [])).2.countP isDestroyFired = 0
      match s.promised with
      | some p =>
          by_cases hps : (p.hasSource && !p.fullfilled) = true
          · simp only [hps, if_true]
            by_cases hne : s.edition ≠ -1
            · rw [if_pos hne]
              simp [List.countP, List.countP.go]
            · rw [if_neg hne]
              simp [List.countP, List.countP.go]
          · simp only [hps, Bool.false_eq_true, if_false]
            simp [List.countP, List.countP.go]
      | none => simp [List.countP, List.countP.go]
  | opDestroy =>
      simp [runOp, isDestroyOp, List.countP, List.countP.go, isDestroyFired]

theorem runOps_destroyed (s : StoreM) (ops : List StoreOp)
    (h : s.edition = -1) : (runOps s ops).1.edition = -1 := by
  induction ops generalizing s with
  | nil => exact h
  | cons op rest ih =>
      show (runOps (runOp s op).1 rest).1.edition = -1
      exact ih _ (runOp_destroyed s op h)

theorem runOps_destroy_count (s : StoreM) (ops : List StoreOp) :
    ((runOps s ops).2).countP isDestroyFired = ops.countP isDestroyOp := by
  induction ops generalizing s with
  | nil => rfl
  | cons op rest ih =>
      show (((runOp s op).2) ++ (runOps (runOp s op).1 rest).2).countP isDestroyFired
        = (op :: rest).countP isDestroyOp
      rw [List.countP_append, runOp_destroy_count, ih, List.countP_cons]
      omega

/-- Claim C9, amended: destroy is terminal for writes (after the edition
is set to the destroyed marker, every Store.set fails with
DestroyedStoreError, and no operation revives the store), the destroy
callbacks receive the last-known root value (or no value when the root
was absent), and the destroy-callback round fires exactly once per
destroy() invocation.  The frozen 'exactly once' is false globally
because destroy() is unguarded: a second destroy() fires the callbacks
again — see the counterexample. -/
theorem c9_destroy_terminal (s : StoreM) (ops : List StoreOp)
    (ad : Descriptor) (v : JsValue) (mv : Option JsValue) :
    (s.edition = -1 → storeSet s ad v mv = .error .destroyed)
  ∧ (s.edition = -1 → (runOps s ops).1.edition = -1)
  ∧ ((runOps s ops).2.countP isDestroyFired = ops.countP isDestroyOp)
  ∧ (runOp s .opDestroy).2
      = [.destroyFired (if isNone s.value then none else some s.value)] := by
  refine ⟨fun h => ?_, fun h => runOps_destroyed s ops h,
          runOps_destroy_count s ops, rfl⟩
  unfold storeSet
  simp [show s.edition < 0 by omega]

/-- Claim C9, counterexample to the frozen statement: calling destroy
twice fires the registered destroy callbacks twice (the code has no
already-destroyed guard), so they do not fire exactly once. -/
theorem c9_counterexample :
    (runOps (mkStore (.vnum 1)) [.opDestroy, .opDestroy]).2
      = [.destroyFired (some (.vnum 1)), .destroyFired (some (.vnum 1))]
  ∧ ((runOps (mkStore (.vnum 1)) [.opDestroy, .opDestroy]).2).countP isDestroyFired = 2
  ∧ (2 : Nat) ≠ 1 := ⟨rfl, rfl, by decide⟩

/-- Witness for c9_destroy_terminal at a concrete destroyed store. -/
theorem c9_destroy_terminal_witness :
    ({ value := .vnum 1, edition := -1, promised := none } : StoreM).edition = -1
  ∧ storeSet { value := .vnum 1, edition := -1, promised := none }
      { path := [] } (.vnum 2) none = .error .destroyed
  ∧ (runOps { value := .vnum 1, edition := -1, promised := none }
      [.opSet [] (.vnum 2)]).1.edition = -1 := by
  have h := c9_destroy_terminal { value := .vnum 1, edition := -1, promised := none }
    [.opSet [] (.vnum 2)] { path := [] } (.vnum 2) none
  exact ⟨rfl, h.1 rfl, h.2.1 rfl⟩

/-- Claim C10: while the root value is the NONE sentinel, Store.get
returns the sentinel for every path — including non-empty ones — and
never throws (the model returns some, never the TypeError case),
because the walk is short-circuited before indexing. -/
theorem c10_get_while_pending (s : StoreM) (path : List Key)
    (h : s.value = .vnone) : storeGet s path = some .vnone := by
  unfold storeGet
  rw [h]
  rfl

/-- Witness for c10_get_while_pending at a pending store and a deep
path. -/
theorem c10_get_while_pending_witness :
    (mkStore .vnone).value = .vnone
  ∧ storeGet (mkStore .vnone) [Key.str "a", Key.num 0, Key.str "b"]
      = some .vnone :=
  ⟨rfl, c10_get_while_pending (mkStore .vnone)
          [Key.str "a", Key.num 0, Key.str "b"] rfl⟩

/-- Claim C5: evaluation of the children-cache pruning at the failing
input.  The action map deletes indices 2 and 10; the claim (and the
code's own comment) requires every cached child with index at least 2 —
in particular the cached child 5 — to be dropped.  The code computes
the first deleted index with the default Array.prototype.sort, which
orders the decimal strings lexicographically, yielding 10 instead of 2,
so the cached child 5 survives. -/
theorem c5_array_delete_prune_eval :
    firstDeletedIndex [("2", Act.D), ("10", Act.D)] = some 10
  ∧ onSetPruneChildren true (some [("2", Act.D), ("10", Act.D)]) (some ["5"])
      = some ["5"]
  ∧ (2 : Nat) ≤ 5
  ∧ canonNat? "5" = some 5 := ⟨by decide, by decide, by decide, by decide⟩

/-- Claim C7: merging the keyed object with a equal 5 and b equal none
into the object-valued root with a equal 1 and b equal 2 produces, in
one aggregated write, the value with only a equal 5; the single
resulting descriptor tags a as an update action and b as a delete
action, and the store's edition advances by exactly one. -/
theorem c7_object_merge :
    mergeUntrackedV4 (mkMethods (mkStore (.vobj [("a", .vnum 1), ("b", .vnum 2)])))
        (.vobj [("a", .vnum 5), ("b", .vnone)])
      = .ok (some { path := [], actions := some [("a", Act.U), ("b", Act.D)] },
             { store := { value := .vobj [("a", .vnum 5)], edition := 1,
                          promised := none },
               path := [],
               valueSource := .vobj [("a", .vnum 1), ("b", .vnum 2)],
               valueEdition := 0 },
             [.pluginSet { path := [], state := some (.vobj [("a", .vnum 5)]),
                           value := some (.vobj [("a", .vnum 5)]),
                           previous := some (.vobj [("a", .vnum 1), ("b", .vnum 2)]),
                           merged := some (.vobj [("a", .vnum 5), ("b", .vnone)]) }])
  ∧ ({ value := .vobj [("a", .vnum 5)], edition := 1, promised := none } : StoreM).edition
      = (mkStore (.vobj [("a", .vnum 1), ("b", .vnum 2)])).edition + 1 :=
  ⟨rfl, rfl⟩

/-- A read through getUntracked never changes the store or the path. -/
theorem getUntracked_frame (m : Methods) (b : Bool) (v : JsValue)
    (m1 : Methods) (h : getUntracked m b = .ok (v, m1)) :
    m1.store = m.store := by
  unfold getUntracked at h
  by_cases hst : m.valueEdition ≠ m.store.edition
  · rw [if_pos hst] at h
    match hg : storeGet m.store m.path with
    | some v0 =>
        rw [hg] at h
        simp only [] at h
        by_cases hn : (isNone v0 && !b) = true
        · rw [if_pos hn] at h
          cases hpr : m.store.promised with
          | some p =>
              rw [hpr] at h
              by_cases he : p.hasError = true <;> simp [he] at h
          | none => rw [hpr] at h; simp at h
        · rw [if_neg (by simpa using hn)] at h
          simp only [Except.ok.injEq, Prod.mk.injEq] at h
          rw [← h.2]
    | none => rw [hg] at h; simp at h
  · rw [if_neg hst] at h
    simp only [] at h
    by_cases hn : (isNone m.valueSource && !b) = true
    · rw [if_pos hn] at h
      cases hpr : m.store.promised with
      | some p =>
          rw [hpr] at h
          by_cases he : p.hasError = true <;> simp [he] at h
      | none => rw [hpr] at h; simp at h
    · rw [if_neg (by simpa using hn)] at h
      simp only [Except.ok.injEq, Prod.mk.injEq] at h
      rw [← h.2]

theorem jsEqPrim_refl {v : JsValue} (h : isPrimitive v = true) :
    jsEqPrim v v = true := by
  cases v <;> simp [isPrimitive] at h <;> simp [jsEqPrim]

/-- Claim C8: setting a primitive leaf state to a value equal to its
current value is a no-op — setUntrackedV4 returns null, so set performs
no store write (edition unchanged), delivers no subscriber notification
and invokes no re-render callback. -/
theorem c8_primitive_noop (subs : List (Descriptor → List Nat)) (m : Methods)
    (v : JsValue) (m1 : Methods)
    (hprim : isPrimitive v = true)
    (hcur : getUntracked m true = .ok (v, m1)) :
    methodsSet subs m v = .ok (m1, [], [], [])
  ∧ m1.store.edition = m.store.edition := by
  have hframe := getUntracked_frame m true v m1 hcur
  constructor
  · unfold methodsSet setUntrackedV4
    rw [if_pos hprim, hcur]
    simp only []
    rw [jsEqPrim_refl hprim]
    rfl
  · rw [hframe]

/-- Witness for c8_primitive_noop at a primitive root state. -/
theorem c8_primitive_noop_witness :
    isPrimitive (JsValue.vnum 5) = true
  ∧ getUntracked (mkMethods (mkStore (.vnum 5))) true
      = .ok (.vnum 5, mkMethods (mkStore (.vnum 5)))
  ∧ methodsSet [] (mkMethods (mkStore (.vnum 5))) (.vnum 5)
      = .ok (mkMethods (mkStore (.vnum 5)), [], [], []) := by
  refine ⟨rfl, rfl, ?_⟩
  exact (c8_primitive_noop [] (mkMethods (mkStore (.vnum 5))) (.vnum 5)
    (mkMethods (mkStore (.vnum 5))) rfl rfl).1

theorem mem_setAdd {acc : List Nat} {x y : Nat} :
    y ∈ setAdd acc x ↔ y ∈ acc ∨ y = x := by
  unfold setAdd
  by_cases hx : x ∈ acc
  · simp only [hx, if_true]
    constructor
    · exact Or.inl
    · rintro (hy | hy)
      · exact hy
      · rw [hy]; exact hx
  · simp [hx]

theorem nodup_setAdd {acc : List Nat} {x : Nat} (h : acc.Nodup) :
    (setAdd acc x).Nodup := by
  unfold setAdd
  by_cases hx : x ∈ acc
  · simp [hx, h]
  · simp [hx, List.nodup_append, h]

theorem mem_foldl_setAdd (l : List Nat) :
    ∀ (acc : List Nat) (y : Nat),
      y ∈ l.foldl setAdd acc ↔ y ∈ acc ∨ y ∈ l := by
  induction l with
  | nil => simp
  | cons x xs ih =>
      intro acc y
      show y ∈ xs.foldl setAdd (setAdd acc x) ↔ _
      rw [ih, mem_setAdd]
      simp only [List.mem_cons]
      tauto

theorem nodup_foldl_setAdd (l : List Nat) :
    ∀ (acc : List Nat), acc.Nodup → (l.foldl setAdd acc).Nodup := by
  induction l with
  | nil => exact fun acc h => h
  | cons x xs ih =>
      intro acc h
      exact ih _ (nodup_setAdd h)

theorem mem_collectOne (subs : List (Descriptor → List Nat)) :
    ∀ (acc : List Nat) (d : Descriptor) (c : Nat),
      c ∈ collectOne subs acc d ↔ c ∈ acc ∨ ∃ f ∈ subs, c ∈ f d := by
  induction subs with
  | nil => simp [collectOne]
  | cons f fs ih =>
      intro acc d c
      show c ∈ fs.foldl (fun acc s => (s d).foldl setAdd acc) ((f d).foldl setAdd acc) ↔ _
      have := ih ((f d).foldl setAdd acc) d c
      rw [show collectOne fs ((f d).foldl setAdd acc) d
            = fs.foldl (fun acc s => (s d).foldl setAdd acc) ((f d).foldl setAdd acc) from rfl] at this
      rw [this, mem_foldl_setAdd]
      simp only [List.mem_cons]
      constructor
      · rintro ((hc | hc) | ⟨g, hg, hcg⟩)
        · exact Or.inl hc
        · exact Or.inr ⟨f, Or.inl rfl, hc⟩
        · exact Or.inr ⟨g, Or.inr hg, hcg⟩
      · rintro (hc | ⟨g, (hg | hg), hcg⟩)
        · exact Or.inl (Or.inl hc)
        · subst hg; exact Or.inl (Or.inr hcg)
        · exact Or.inr ⟨g, hg, hcg⟩

theorem nodup_collectOne (subs : List (Descriptor → List Nat)) :
    ∀ (acc : List Nat) (d : Descriptor), acc.Nodup →
      (collectOne subs acc d).Nodup := by
  induction subs with
  | nil => exact fun acc d h => h
  | cons f fs ih =>
      intro acc d h
      exact ih _ d (nodup_foldl_setAdd _ _ h)

theorem mem_foldl_collectOne (subs : List (Descriptor → List Nat))
    (ds : List Descriptor) :
    ∀ (acc : List Nat) (c : Nat),
      c ∈ ds.foldl (collectOne subs) acc ↔
        c ∈ acc ∨ ∃ d ∈ ds, ∃ f ∈ subs, c ∈ f d := by
  induction ds with
  | nil => simp
  | cons d rest ih =>
      intro acc c
      show c ∈ rest.foldl (collectOne subs) (collectOne subs acc d) ↔ _
      rw [ih, mem_collectOne]
      simp only [List.mem_cons]
      constructor
      · rintro ((hc | ⟨f, hf, hcf⟩) | ⟨d', hd', f, hf, hcf⟩)
        · exact Or.inl hc
        · exact Or.inr ⟨d, Or.inl rfl, f, hf, hcf⟩
        · exact Or.inr ⟨d', Or.inr hd', f, hf, hcf⟩
      · rintro (hc | ⟨d', (hd' | hd'), f, hf, hcf⟩)
        · exact Or.inl (Or.inl hc)
        · subst hd'; exact Or.inl (Or.inr ⟨f, hf, hcf⟩)
        · exact Or.inr ⟨d', hd', f, hf, hcf⟩

theorem nodup_foldl_collectOne (subs : List (Descriptor → List Nat))
    (ds : List Descriptor) :
    ∀ (acc : List Nat), acc.Nodup → (ds.foldl (collectOne subs) acc).Nodup := by
  induction ds with
  | nil => exact fun acc h => h
  | cons d rest ih =>
      intro acc h
      exact ih _ (nodup_collectOne subs acc d h)

/-- Claim C6: Store.update delivers, when the descriptor carries an
all-update action map, one single-key notification per child key (path
extended by the string key, no action map) to every subscriber, and
otherwise the descriptor as-is; the collected re-render callbacks are
deduplicated by identity — the invocation list has no duplicates and
contains a callback exactly when some subscriber added it for some
delivered descriptor — and they are invoked only after the full fan-out
over all subscribers (the invocation list is computed from the complete
fold over every delivered descriptor and every subscriber). -/
theorem c6_update_fanout (subs : List (Descriptor → List Nat)) (ad : Descriptor) :
    (∀ m, ad.actions = some m → allU m = true →
       (storeUpdateModel subs ad).1
         = (objKeys m).map
             (fun key => ({ path := ad.path ++ [Key.str key] } : Descriptor)))
  ∧ (∀ m, ad.actions = some m → allU m = false →
       (storeUpdateModel subs ad).1 = [ad])
  ∧ (ad.actions = none → (storeUpdateModel subs ad).1 = [ad])
  ∧ (storeUpdateModel subs ad).2.Nodup
  ∧ (∀ c, c ∈ (storeUpdateModel subs ad).2 ↔
       ∃ d ∈ (storeUpdateModel subs ad).1, ∃ f ∈ subs, c ∈ f d) := by
  refine ⟨?_, ?_, ?_, ?_, ?_⟩
  · intro m hm hall
    unfold storeUpdateModel
    rw [hm]
    simp only [hall, if_true]
  · intro m hm hall
    unfold storeUpdateModel
    rw [hm]
    simp only [hall, Bool.false_eq_true, if_false]
  · intro hm
    unfold storeUpdateModel
    rw [hm]
  · unfold storeUpdateModel
    match ad.actions with
    | some m =>
        by_cases hall : allU m = true
        · simp only [hall, if_true]
          exact nodup_foldl_collectOne subs _ [] List.nodup_nil
        · simp only [hall, Bool.false_eq_true, if_false]
          exact nodup_collectOne subs [] ad List.nodup_nil
    | none => exact nodup_collectOne subs [] ad List.nodup_nil
  · intro c
    unfold storeUpdateModel
    match ad.actions with
    | some m =>
        by_cases hall : allU m = true
        · simp only [hall, if_true]
          rw [mem_foldl_collectOne]
          simp
        · simp only [hall, Bool.false_eq_true, if_false]
          rw [mem_collectOne]
          simp
    | none =>
        rw [show (([ad], collectOne subs [] ad) :
              List Descriptor × List Nat).2 = collectOne subs [] ad from rfl]
        rw [mem_collectOne]
        simp

/-- Witness for c6_update_fanout at a concrete all-update descriptor
and overlapping subscribers. -/
theorem c6_update_fanout_witness :
    allU [("a", Act.U), ("b", Act.U)] = true
  ∧ (storeUpdateModel [fun _ => [1, 2], fun _ => [2, 3]]
       { path := [Key.str "r"], actions := some [("a", Act.U), ("b", Act.U)] }).1
      = [{ path := [Key.str "r", Key.str "a"] },
         { path := [Key.str "r", Key.str "b"] }]
  ∧ (storeUpdateModel [fun _ => [1, 2], fun _ => [2, 3]]
       { path := [Key.str "r"], actions := some [("a", Act.U), ("b", Act.U)] }).2.Nodup := by
  have h := c6_update_fanout [fun _ => [1, 2], fun _ => [2, 3]]
    { path := [Key.str "r"], actions := some [("a", Act.U), ("b", Act.U)] }
  exact ⟨rfl, h.1 [("a", Act.U), ("b", Act.U)] rfl rfl, h.2.2.2.1⟩
